import Mathlib

/-!
Verification development for the HiveMind knowledge-lifecycle engine.

Shallow embedding of the Python sources under `hivemind/`:
timestamps are naturals, machine floats whose role is exact comparison are
rationals, and the quality-score formula (which uses `tanh`, `exp`, `log`)
is embedded over the reals.  External dependencies (the Presidio analyzer,
the LLM vendor API, `uuid4` randomness) enter as explicit parameters of the
embedded functions, so every code path of the repository itself is a total
Lean function.
-/

namespace HiveMind

/-- Embedding of the `knowledge_items` row (hivemind/db/models, as used by
the tools).  Timestamps are `Option Nat` (NULL-able columns); `org_id` is the
tenant of the row and `is_public` the commons flag. -/
structure KnowledgeRow where
  rid : String
  org_id : String
  is_public : Bool
  content : String
  content_hash : String
  category : String
  has_embedding : Bool
  expired_at : Option Nat
  valid_at : Option Nat
  invalid_at : Option Nat
  deleted_at : Option Nat
  retrieval_count : Nat
  helpful_count : Nat
  not_helpful_count : Nat
  deriving Repr, DecidableEq

/-- One WHERE-clause condition of `build_temporal_filter`
(hivemind/temporal/queries.py, lines 60-73): world-time start —
`valid_at IS NULL OR valid_at <= at_time`. -/
def validAtCond (at_time : Nat) (r : KnowledgeRow) : Bool :=
  match r.valid_at with
  | none => true
  | some v => decide (v ≤ at_time)

/-- One WHERE-clause condition of `build_temporal_filter`: world-time end —
`invalid_at IS NULL OR invalid_at > at_time`. -/
def invalidAtCond (at_time : Nat) (r : KnowledgeRow) : Bool :=
  match r.invalid_at with
  | none => true
  | some v => decide (v > at_time)

/-- One WHERE-clause condition of `build_temporal_filter`: system-time end —
`expired_at IS NULL`. -/
def expiredAtCond (r : KnowledgeRow) : Bool :=
  r.expired_at.isNone

/-- Embedding of `build_temporal_filter(at_time)`
(hivemind/temporal/queries.py): the conjunction of the three returned
conditions, i.e. whether a row passes the point-in-time filter at `at_time`. -/
def build_temporal_filter (at_time : Nat) (r : KnowledgeRow) : Bool :=
  validAtCond at_time r && invalidAtCond at_time r && expiredAtCond r

/-- The specification's wording of the point-in-time predicate (spec §4.8):
`expired_at IS NULL ∧ (valid_at IS NULL ∨ valid_at ≤ T) ∧
(invalid_at IS NULL ∨ invalid_at > T)`. -/
def specTemporalPred (T : Nat) (r : KnowledgeRow) : Prop :=
  r.expired_at = none ∧
    (r.valid_at = none ∨ ∃ v, r.valid_at = some v ∧ v ≤ T) ∧
    (r.invalid_at = none ∨ ∃ w, r.invalid_at = some w ∧ w > T)

/-- C4: for every query time T, the point-in-time filter admits a row if and
only if `expired_at IS NULL`, `valid_at IS NULL ∨ valid_at ≤ T`, and
`invalid_at IS NULL ∨ invalid_at > T`; in particular every non-expired row
with null `valid_at` and null `invalid_at` passes for every T. -/
theorem temporal_filter_characterization :
    (∀ (T : Nat) (r : KnowledgeRow),
      build_temporal_filter T r = true ↔ specTemporalPred T r) ∧
    (∀ (T : Nat) (r : KnowledgeRow),
      r.valid_at = none → r.invalid_at = none → r.expired_at = none →
        build_temporal_filter T r = true) := by
  constructor
  · intro T r
    unfold build_temporal_filter validAtCond invalidAtCond expiredAtCond
      specTemporalPred
    rcases r with ⟨rid, org, pub, c, ch, cat, emb, ea, va, ia, da, n1, n2, n3⟩
    simp only
    cases ea <;> cases va <;> cases ia <;> simp [Option.isNone]
  · intro T r hv hi he
    unfold build_temporal_filter validAtCond invalidAtCond expiredAtCond
    rw [hv, hi, he]
    rfl

/-- C4 witness: a concrete non-expired row with null world-time columns
passes the filter at T = 0. -/
theorem temporal_filter_characterization_witness :
    build_temporal_filter 0
      { rid := "a", org_id := "o", is_public := false, content := "c",
        content_hash := "h", category := "general", has_embedding := true,
        expired_at := none, valid_at := none, invalid_at := none,
        deleted_at := none, retrieval_count := 0, helpful_count := 0,
        not_helpful_count := 0 } = true :=
  temporal_filter_characterization.2 0 _ rfl rfl rfl

/-!  Quality scorer (hivemind/quality/scorer.py).  -/

/-- Embedding of `compute_quality_score` (hivemind/quality/scorer.py,
lines 22-121).  Counters are naturals; the float formula is embedded over the
reals.  The Python default arguments (`staleness_half_life_days = 90.0` and
the four weights) are passed explicitly here. -/
noncomputable def compute_quality_score
    (retrieval_count helpful_count not_helpful_count : ℕ)
    (contradiction_rate days_since_last_access : ℝ)
    (is_version_current : Bool)
    (staleness_half_life_days : ℝ)
    (weight_usefulness weight_popularity weight_freshness
      weight_contradiction : ℝ) : ℝ :=
  let total_outcomes := helpful_count + not_helpful_count
  let usefulness : ℝ := (helpful_count : ℝ) / ((max total_outcomes 1 : ℕ) : ℝ)
  let popularity : ℝ := Real.tanh ((retrieval_count : ℝ) / 50.0)
  let freshness : ℝ :=
    Real.exp (-(Real.log 2.0) * days_since_last_access /
      max staleness_half_life_days 1e-9)
  let version_bonus : ℝ := if is_version_current then 0.1 else 0.0
  let raw :=
    weight_usefulness * usefulness + weight_popularity * popularity
      + weight_freshness * freshness
      - weight_contradiction * contradiction_rate + version_bonus
  max 0.0 (min 1.0 raw)

/-- The quality-score formula as the specification words it (spec §4.10 /
claim C6): `clamp(0.40*usefulness + 0.25*tanh(retrieval/50) +
0.20*exp(-ln 2 * days/half_life) - 0.15*rate + version_bonus, 0, 1)`. -/
noncomputable def specQualityScore
    (retrieval_count helpful_count not_helpful_count : ℕ)
    (contradiction_rate days_since_last_access half_life : ℝ)
    (is_version_current : Bool) : ℝ :=
  max 0.0 (min 1.0
    (0.40 * ((helpful_count : ℝ) /
        ((max (helpful_count + not_helpful_count) 1 : ℕ) : ℝ))
      + 0.25 * Real.tanh ((retrieval_count : ℝ) / 50.0)
      + 0.20 * Real.exp (-(Real.log 2.0) * days_since_last_access / half_life)
      - 0.15 * contradiction_rate
      + (if is_version_current then 0.1 else 0.0)))

/-- C6: with the default half-life (90 days) and weights, the code's
`compute_quality_score` equals the clamp formula of the spec, and its result
lies in [0,1], for all non-negative counts, `contradiction_rate ∈ [0,1]`
and non-negative `days_since_last_access`. -/
theorem quality_score_matches_spec_and_bounded
    (retrieval_count helpful_count not_helpful_count : ℕ)
    (contradiction_rate days_since_last_access : ℝ)
    (is_version_current : Bool)
    (hr0 : 0 ≤ contradiction_rate) (hr1 : contradiction_rate ≤ 1)
    (hd : 0 ≤ days_since_last_access) :
    compute_quality_score retrieval_count helpful_count not_helpful_count
        contradiction_rate days_since_last_access is_version_current
        90.0 0.40 0.25 0.20 0.15 =
      specQualityScore retrieval_count helpful_count not_helpful_count
        contradiction_rate days_since_last_access 90.0 is_version_current ∧
    0 ≤ compute_quality_score retrieval_count helpful_count not_helpful_count
          contradiction_rate days_since_last_access is_version_current
          90.0 0.40 0.25 0.20 0.15 ∧
    compute_quality_score retrieval_count helpful_count not_helpful_count
        contradiction_rate days_since_last_access is_version_current
        90.0 0.40 0.25 0.20 0.15 ≤ 1 := by
  have hmax : max (90.0 : ℝ) 1e-9 = 90.0 := max_eq_left (by norm_num)
  refine ⟨?_, ?_, ?_⟩
  · unfold compute_quality_score specQualityScore
    rw [hmax]
  · unfold compute_quality_score
    exact le_trans (by norm_num) (le_max_left (0.0 : ℝ) _)
  · unfold compute_quality_score
    exact max_le (by norm_num) (le_trans (min_le_left (1.0 : ℝ) _) (by norm_num))

/-- C6 witness: the theorem at a concrete input (no outcomes, no retrievals,
`contradiction_rate = 1/2`, zero days, not version-current). -/
theorem quality_score_matches_spec_and_bounded_witness :
    (0 : ℝ) ≤ 1/2 ∧ (1/2 : ℝ) ≤ 1 ∧ (0 : ℝ) ≤ 0 ∧
    (compute_quality_score 0 0 0 (1/2) 0 false 90.0 0.40 0.25 0.20 0.15 =
        specQualityScore 0 0 0 (1/2) 0 90.0 false ∧
      0 ≤ compute_quality_score 0 0 0 (1/2) 0 false 90.0 0.40 0.25 0.20 0.15 ∧
      compute_quality_score 0 0 0 (1/2) 0 false 90.0 0.40 0.25 0.20 0.15 ≤ 1) :=
  ⟨by norm_num, by norm_num, le_refl 0,
    quality_score_matches_spec_and_bounded 0 0 0 (1/2) 0 false
      (by norm_num) (by norm_num) (le_refl 0)⟩

/-!  Content integrity (hivemind/pipeline/integrity.py).  The Python code
calls `hashlib.sha256` on the UTF-8 bytes of the content; SHA-256 and the
UTF-8 encoder are implemented here in full.  -/

/-- UTF-8 encoding of one character (the byte sequence `str.encode()`
produces for it), each byte a natural below 256. -/
def utf8Bytes (c : Char) : List Nat :=
  let n := c.toNat
  if n < 0x80 then [n]
  else if n < 0x800 then
    [0xC0 ||| (n >>> 6), 0x80 ||| (n &&& 0x3F)]
  else if n < 0x10000 then
    [0xE0 ||| (n >>> 12), 0x80 ||| ((n >>> 6) &&& 0x3F), 0x80 ||| (n &&& 0x3F)]
  else
    [0xF0 ||| (n >>> 18), 0x80 ||| ((n >>> 12) &&& 0x3F),
      0x80 ||| ((n >>> 6) &&& 0x3F), 0x80 ||| (n &&& 0x3F)]

/-- UTF-8 encoding of a string, as Python's `content.encode()`. -/
def utf8Encode (s : String) : List Nat :=
  (s.data.map utf8Bytes).flatten

/-- Truncation to a 32-bit word. -/
def w32 (n : Nat) : Nat := n % 4294967296

/-- 32-bit right rotation. -/
def rotr (n x : Nat) : Nat := w32 ((x >>> n) ||| (x <<< (32 - n)))

/-- SHA-256 Σ0. -/
def bsig0 (x : Nat) : Nat := rotr 2 x ^^^ rotr 13 x ^^^ rotr 22 x

/-- SHA-256 Σ1. -/
def bsig1 (x : Nat) : Nat := rotr 6 x ^^^ rotr 11 x ^^^ rotr 25 x

/-- SHA-256 σ0. -/
def ssig0 (x : Nat) : Nat := rotr 7 x ^^^ rotr 18 x ^^^ (x >>> 3)

/-- SHA-256 σ1. -/
def ssig1 (x : Nat) : Nat := rotr 17 x ^^^ rotr 19 x ^^^ (x >>> 10)

/-- SHA-256 choice function `Ch`. -/
def chOf (x y z : Nat) : Nat := (x &&& y) ^^^ ((x ^^^ 0xFFFFFFFF) &&& z)

/-- SHA-256 majority function `Maj`. -/
def majOf (x y z : Nat) : Nat := (x &&& y) ^^^ (x &&& z) ^^^ (y &&& z)

/-- The 64 SHA-256 round constants, written in decimal. -/
def shaK : List Nat :=
  [1116352408, 1899447441, 3049323471, 3921009573, 961987163,
   1508970993, 2453635748, 2870763221, 3624381080, 310598401,
   607225278, 1426881987, 1925078388, 2162078206, 2614888103,
   3248222580, 3835390401, 4022224774, 264347078, 604807628,
   770255983, 1249150122, 1555081692, 1996064986, 2554220882,
   2821834349, 2952996808, 3210313671, 3336571891, 3584528711,
   113926993, 338241895, 666307205, 773529912, 1294757372,
   1396182291, 1695183700, 1986661051, 2177026350, 2456956037,
   2730485921, 2820302411, 3259730800, 3345764771, 3516065817,
   3600352804, 4094571909, 275423344, 430227734, 506948616,
   659060556, 883997877, 958139571, 1322822218, 1537002063,
   1747873779, 1955562222, 2024104815, 2227730452, 2361852424,
   2428436474, 2756734187, 3204031479, 3329325298]

/-- The SHA-256 initial hash state, written in decimal. -/
def shaH0 : List Nat :=
  [1779033703, 3144134277, 1013904242, 2773480762,
   1359893119, 2600822924, 528734635, 1541459225]

/-- Big-endian byte decomposition of `n` into `k` bytes. -/
def toBytesBE : Nat → Nat → List Nat
  | 0, _ => []
  | k + 1, n => (n >>> (8 * k)) % 256 :: toBytesBE k n

/-- SHA-256 message padding: append `0x80`, zero bytes to 56 mod 64, then
the bit length as 8 big-endian bytes. -/
def padMessage (m : List Nat) : List Nat :=
  let L := m.length
  let k := (120 - ((L + 1) % 64)) % 64
  m ++ [0x80] ++ List.replicate k 0 ++ toBytesBE 8 (L * 8)

/-- Split into 64-byte chunks (fuel-structured so the kernel can reduce it). -/
def chunks64Go : Nat → List Nat → List (List Nat)
  | 0, _ => []
  | _, [] => []
  | fuel + 1, l => l.take 64 :: chunks64Go fuel (l.drop 64)

/-- Split a padded message into its 64-byte chunks. -/
def chunks64 (l : List Nat) : List (List Nat) :=
  chunks64Go (l.length + 1) l

/-- The first 16 schedule words of a chunk (big-endian 32-bit words). -/
def words16 (chunk : List Nat) : List Nat :=
  (List.range 16).map fun i =>
    (chunk.getD (4 * i) 0) <<< 24 ||| (chunk.getD (4 * i + 1) 0) <<< 16 |||
      (chunk.getD (4 * i + 2) 0) <<< 8 ||| chunk.getD (4 * i + 3) 0

/-- Extend the message schedule by `k` further words. -/
def extendW : List Nat → Nat → List Nat
  | w, 0 => w
  | w, k + 1 =>
    let n := w.length
    let next := w32 (ssig1 (w.getD (n - 2) 0) + w.getD (n - 7) 0 +
      ssig0 (w.getD (n - 15) 0) + w.getD (n - 16) 0)
    extendW (w ++ [next]) k

/-- One SHA-256 compression round on the 8-word working state. -/
def compressStep (st : List Nat) (kw : Nat × Nat) : List Nat :=
  match st with
  | [a, b, c, d, e, f, g, h] =>
    let t1 := w32 (h + bsig1 e + chOf e f g + kw.1 + kw.2)
    let t2 := w32 (bsig0 a + majOf a b c)
    [w32 (t1 + t2), a, b, c, w32 (d + t1), e, f, g]
  | other => other

/-- Process one 64-byte chunk into the running hash state. -/
def processChunk (H : List Nat) (chunk : List Nat) : List Nat :=
  let W := extendW (words16 chunk) 48
  let st := (shaK.zip W).foldl compressStep H
  (H.zip st).map fun p => w32 (p.1 + p.2)

/-- SHA-256 digest (32 bytes) of a byte sequence. -/
def sha256Bytes (m : List Nat) : List Nat :=
  let Hf := (chunks64 (padMessage m)).foldl processChunk shaH0
  (Hf.map (toBytesBE 4)).flatten

/-- Lowercase hex digit for a value below 16. -/
def hexDigit (n : Nat) : Char :=
  if n < 10 then Char.ofNat (48 + n) else Char.ofNat (87 + n)

/-- Lowercase hex rendering of a byte list, as `hexdigest()` produces. -/
def bytesToHex (bs : List Nat) : String :=
  ⟨(bs.map fun b => [hexDigit (b / 16), hexDigit (b % 16)]).flatten⟩

/-- Embedding of `compute_content_hash` (hivemind/pipeline/integrity.py,
lines 29-43): `hashlib.sha256(content.encode()).hexdigest()`. -/
def compute_content_hash (content : String) : String :=
  bytesToHex (sha256Bytes (utf8Encode content))

/-- Embedding of `verify_content_hash` (hivemind/pipeline/integrity.py,
lines 46-63): hex-digest string equality. -/
def verify_content_hash (content stored_hash : String) : Bool :=
  compute_content_hash content == stored_hash

/-!  Fetch-by-id (hivemind/server/tools/search_knowledge.py, `_fetch_by_id`,
lines 229-296).  -/

/-- The dict the fetch path returns for an item (the fields of this model's
`KnowledgeRow`; on a hash mismatch the Python dict carries an
`integrity_warning` key instead of `integrity_verified`). -/
structure ItemView where
  rid : String
  content : String
  category : String
  org_attribution : String
  integrity_verified : Option Bool
  integrity_warning : Option String
  deriving Repr, DecidableEq

/-- Result of the fetch path: an MCP error (`CallToolResult` with
`isError=True` and the given text) or a full-item dict. -/
inductive FetchResult where
  | err (message : String)
  | item (view : ItemView)
  deriving Repr, DecidableEq

/-- The fetch path's not-found error text (same for a missing id and for an
inaccessible cross-tenant id). -/
def notFoundText (id : String) : String :=
  "Knowledge item " ++ id ++ " not found."

/-- The fetch path's tamper-warning text. -/
def integrityWarningText : String :=
  "Content hash mismatch detected - this item may have been tampered with."

/-- The WHERE clause of `_fetch_by_id`: id match, org isolation
(`org_id == caller OR is_public`), and not soft-deleted. -/
def fetchPred (org id : String) (r : KnowledgeRow) : Bool :=
  r.rid == id && (r.org_id == org || r.is_public) && r.deleted_at.isNone

/-- The single-row lookup of `_fetch_by_id` (`scalar_one_or_none`). -/
def fetchLookup (db : List KnowledgeRow) (org id : String) :
    Option KnowledgeRow :=
  db.find? (fetchPred org id)

/-- The full-item dict built on a hash mismatch (content still returned,
with `integrity_warning`). -/
def mismatchView (x : KnowledgeRow) : ItemView :=
  { rid := x.rid, content := x.content, category := x.category,
    org_attribution := x.org_id, integrity_verified := none,
    integrity_warning := some integrityWarningText }

/-- The full-item dict built when the hash verifies
(`integrity_verified: True`). -/
def verifiedView (x : KnowledgeRow) : ItemView :=
  { rid := x.rid, content := x.content, category := x.category,
    org_attribution := x.org_id, integrity_verified := some true,
    integrity_warning := none }

/-- Embedding of `_fetch_by_id` (hivemind/server/tools/search_knowledge.py):
tenant-scoped lookup, not-found error, SHA-256 verification, and the
warning-instead-of-error mismatch path. -/
def fetchById (db : List KnowledgeRow) (org id : String) : FetchResult :=
  match fetchLookup db org id with
  | none => FetchResult.err (notFoundText id)
  | some x =>
    if ! verify_content_hash x.content x.content_hash then
      FetchResult.item (mismatchView x)
    else
      FetchResult.item (verifiedView x)

/-- C5: a fetch of an existing but other-tenant, non-public item returns
exactly the not-found error, and deleting that row from the database leaves
the fetch result unchanged — the two worlds are indistinguishable. -/
theorem fetch_cross_tenant_indistinguishable
    (db : List KnowledgeRow) (org id : String) (x : KnowledgeRow)
    (hmem : x ∈ db) (hid : x.rid = id) (horg : x.org_id ≠ org)
    (hpub : x.is_public = false)
    (hsole : ∀ r ∈ db, r.rid = id → r = x) :
    fetchById db org id = FetchResult.err (notFoundText id) ∧
    fetchById (db.filter (fun r => r.rid != id)) org id =
      FetchResult.err (notFoundText id) := by
  have hpred : ∀ r ∈ db, r.rid = id → fetchPred org id r = false := by
    intro r hr hrid
    have hx : r = x := hsole r hr hrid
    subst hx
    simp [fetchPred, hpub]
    intro _ heq
    exact absurd heq horg
  constructor
  · have hfind : fetchLookup db org id = none := by
      rw [fetchLookup, List.find?_eq_none]
      intro r hr hp
      by_cases hcase : r.rid = id
      · have := hpred r hr hcase
        rw [this] at hp
        exact Bool.false_ne_true hp
      · rw [fetchPred] at hp
        have : (r.rid == id) = true := by
          cases hrid : r.rid == id with
          | true => rfl
          | false => rw [hrid] at hp; simp at hp
        exact hcase (eq_of_beq this)
    rw [fetchById, hfind]
  · have hfind : fetchLookup (db.filter (fun r => r.rid != id)) org id = none := by
      rw [fetchLookup, List.find?_eq_none]
      intro r hr hp
      rw [List.mem_filter] at hr
      rw [fetchPred] at hp
      have hbeq : (r.rid == id) = true := by
        cases hrid : r.rid == id with
        | true => rfl
        | false => rw [hrid] at hp; simp at hp
      have : (r.rid != id) = true := hr.2
      rw [bne] at this
      rw [hbeq] at this
      simp at this
    rw [fetchById, hfind]

/-- A concrete private row of tenant `orgB`, used by the C5 witness. -/
def crossTenantRow : KnowledgeRow :=
  { rid := "k1", org_id := "orgB", is_public := false, content := "c",
    content_hash := "h", category := "general", has_embedding := true,
    expired_at := none, valid_at := none, invalid_at := none,
    deleted_at := none, retrieval_count := 0, helpful_count := 0,
    not_helpful_count := 0 }

/-- C5 witness: the theorem at a one-row database holding a private item of
another tenant. -/
theorem fetch_cross_tenant_indistinguishable_witness :
    fetchById [crossTenantRow] "orgA" "k1" =
      FetchResult.err (notFoundText "k1") ∧
    fetchById (List.filter (fun r => r.rid != "k1") [crossTenantRow])
        "orgA" "k1" =
      FetchResult.err (notFoundText "k1") :=
  fetch_cross_tenant_indistinguishable [crossTenantRow] "orgA" "k1"
    crossTenantRow (List.mem_singleton.mpr rfl) rfl (by decide) rfl
    (fun r hr _ => List.mem_singleton.mp hr)

/-- C7: every fetch of an accessible item verifies the stored SHA-256 hash;
a mismatch still returns the item's content in a full-item view carrying an
`integrity_warning` (not an error), and `verify_content_hash` accepts the
hash that `compute_content_hash` produces, for every string. -/
theorem fetch_integrity_behaviour :
    (∀ c : String, verify_content_hash c (compute_content_hash c) = true) ∧
    (∀ (db : List KnowledgeRow) (org id : String) (x : KnowledgeRow),
      fetchLookup db org id = some x →
      verify_content_hash x.content x.content_hash = false →
      fetchById db org id = FetchResult.item (mismatchView x) ∧
        (mismatchView x).content = x.content ∧
        (mismatchView x).integrity_warning = some integrityWarningText) ∧
    (∀ (db : List KnowledgeRow) (org id : String) (x : KnowledgeRow),
      fetchLookup db org id = some x →
      verify_content_hash x.content x.content_hash = true →
      fetchById db org id = FetchResult.item (verifiedView x)) := by
  refine ⟨?_, ?_, ?_⟩
  · intro c
    simp [verify_content_hash]
  · intro db org id x hfind hbad
    refine ⟨?_, rfl, rfl⟩
    simp [fetchById, hfind, hbad]
  · intro db org id x hfind hok
    simp [fetchById, hfind, hok]

/-- A concrete accessible row whose stored hash does not match its content,
used by the C7 witness. -/
def tamperedRow : KnowledgeRow :=
  { rid := "k1", org_id := "orgA", is_public := false, content := "abc",
    content_hash := "bad", category := "general", has_embedding := true,
    expired_at := none, valid_at := none, invalid_at := none,
    deleted_at := none, retrieval_count := 0, helpful_count := 0,
    not_helpful_count := 0 }

/-- C7 witness: a one-row database whose stored hash is wrong — the fetch
still returns the content, with the warning view. -/
theorem fetch_integrity_behaviour_witness :
    fetchLookup [tamperedRow] "orgA" "k1" = some tamperedRow ∧
    verify_content_hash tamperedRow.content tamperedRow.content_hash = false ∧
    fetchById [tamperedRow] "orgA" "k1" =
      FetchResult.item (mismatchView tamperedRow) :=
  ⟨rfl, rfl,
    (fetch_integrity_behaviour.2.1 [tamperedRow] "orgA" "k1" tamperedRow
      rfl rfl).1⟩

/-!  Conflict resolver (hivemind/conflict/resolver.py).  The LLM vendor API
and `json.loads` are external; the embedding takes the decoded JSON object
(or its absence, for a parse failure) and the failure mode of the call as
explicit inputs.  -/

/-- A successfully decoded conflict-resolution JSON object: each field is
`none` when the key is absent (Python `.get` default applies). -/
structure ConflictJson where
  action : Option String
  reason : Option String
  is_direct_conflict : Option Bool
  deriving Repr, DecidableEq

/-- Upper-casing of a string, character by character (Python's
`str.upper()` on the ASCII action vocabulary). -/
def upperStr (s : String) : String := String.mk (s.data.map Char.toUpper)

/-- `_VALID_ACTIONS` (resolver.py line 55). -/
def validActions : List String := ["UPDATE", "ADD", "NOOP", "VERSION_FORK"]

/-- The parsed result `_parse_conflict_response` yields. -/
structure ParsedConflict where
  action : String
  reason : String
  is_direct_conflict : Bool
  deriving Repr, DecidableEq

/-- Embedding of `_parse_conflict_response` (resolver.py lines 92-126):
`none` input models a `json.loads` failure, whose fallback is
`action = ADD, is_direct_conflict = True`; an out-of-vocabulary action is
normalized to `ADD` after upper-casing. -/
def parse_conflict_response (parsed : Option ConflictJson) : ParsedConflict :=
  match parsed with
  | none =>
    { action := "ADD", reason := "Parse error - defaulting to ADD",
      is_direct_conflict := true }
  | some j =>
    let a := upperStr (j.action.getD "ADD")
    { action := if validActions.contains a then a else "ADD",
      reason := j.reason.getD "",
      is_direct_conflict := j.is_direct_conflict.getD true }

/-- How the LLM interaction inside `resolve_conflict` can go: no API key
configured, a timeout, an HTTP error, an unexpected exception, or a text
response whose JSON decode succeeded (`some`) or failed (`none`). -/
inductive LLMOutcome where
  | noApiKey
  | timeoutErr
  | httpErr (msg : String)
  | otherErr (msg : String)
  | response (parsed : Option ConflictJson)
  deriving Repr, DecidableEq

/-- The dict `resolve_conflict` returns. -/
structure ResolveResult where
  action : String
  reason : String
  is_direct_conflict : Bool
  existing_item_id : String
  deriving Repr, DecidableEq

/-- Embedding of `resolve_conflict` (resolver.py lines 129-233) as a
function of the LLM interaction's outcome: every failure branch returns
`ADD`; a parsed response with `is_direct_conflict = false` is overridden to
`FLAGGED_FOR_REVIEW`; otherwise the parsed action is returned. -/
def resolve_conflict (outcome : LLMOutcome) (existing_item_id : String) :
    ResolveResult :=
  match outcome with
  | .noApiKey =>
    { action := "ADD", reason := "No LLM API key configured - defaulting to ADD",
      is_direct_conflict := true, existing_item_id := existing_item_id }
  | .timeoutErr =>
    { action := "ADD", reason := "LLM API timed out - defaulting to ADD",
      is_direct_conflict := true, existing_item_id := existing_item_id }
  | .httpErr m =>
    { action := "ADD", reason := "LLM API error: " ++ m ++ " - defaulting to ADD",
      is_direct_conflict := true, existing_item_id := existing_item_id }
  | .otherErr m =>
    { action := "ADD", reason := "Unexpected error: " ++ m ++ " - defaulting to ADD",
      is_direct_conflict := true, existing_item_id := existing_item_id }
  | .response parsed =>
    let p := parse_conflict_response parsed
    if !p.is_direct_conflict then
      { action := "FLAGGED_FOR_REVIEW", reason := p.reason,
        is_direct_conflict := false, existing_item_id := existing_item_id }
    else
      { action := p.action, reason := p.reason,
        is_direct_conflict := p.is_direct_conflict,
        existing_item_id := existing_item_id }

/-- C8 counterexample: an out-of-vocabulary LLM response (`action: MERGE`)
that also carries `is_direct_conflict: false` returns `FLAGGED_FOR_REVIEW`,
not `ADD` — falsifying the claim's assertion that every out-of-vocabulary
response falls back to `ADD`. -/
theorem conflict_out_of_vocab_counterexample :
    validActions.contains (upperStr "MERGE") = false ∧
    (resolve_conflict (LLMOutcome.response (some
        { action := some "MERGE", reason := some "r",
          is_direct_conflict := some false })) "e1").action =
      "FLAGGED_FOR_REVIEW" ∧
    (resolve_conflict (LLMOutcome.response (some
        { action := some "MERGE", reason := some "r",
          is_direct_conflict := some false })) "e1").action ≠ "ADD" := by
  refine ⟨by decide, by decide, by decide⟩

/-- C8 amended: a response that parses with `is_direct_conflict = false`
returns `FLAGGED_FOR_REVIEW` regardless of the proposed action; the pure
failure modes — no API key, timeout, HTTP error, unexpected error,
undecodable JSON — all return `ADD`; an out-of-vocabulary action is
normalized to `ADD` *before* the `is_direct_conflict` override, so with
`is_direct_conflict = false` it still yields `FLAGGED_FOR_REVIEW`. -/
theorem conflict_resolver_fallbacks :
    (∀ (j : ConflictJson) (eid : String),
      (parse_conflict_response (some j)).is_direct_conflict = false →
      (resolve_conflict (LLMOutcome.response (some j)) eid).action =
        "FLAGGED_FOR_REVIEW") ∧
    (∀ eid, (resolve_conflict LLMOutcome.noApiKey eid).action = "ADD") ∧
    (∀ eid, (resolve_conflict LLMOutcome.timeoutErr eid).action = "ADD") ∧
    (∀ m eid, (resolve_conflict (LLMOutcome.httpErr m) eid).action = "ADD") ∧
    (∀ m eid, (resolve_conflict (LLMOutcome.otherErr m) eid).action = "ADD") ∧
    (∀ eid, (resolve_conflict (LLMOutcome.response none) eid).action = "ADD") := by
  refine ⟨?_, fun _ => rfl, fun _ => rfl, fun _ _ => rfl, fun _ _ => rfl,
    fun _ => rfl⟩
  intro j eid h
  simp [resolve_conflict, h]

/-- C8 witness: the override branch of the amended theorem at a concrete
parsed response whose proposed action is the in-vocabulary `UPDATE`. -/
theorem conflict_resolver_fallbacks_witness :
    (parse_conflict_response (some
        { action := some "UPDATE", reason := some "r",
          is_direct_conflict := some false })).is_direct_conflict = false ∧
    (resolve_conflict (LLMOutcome.response (some
        { action := some "UPDATE", reason := some "r",
          is_direct_conflict := some false })) "e2").action =
      "FLAGGED_FOR_REVIEW" :=
  ⟨rfl, conflict_resolver_fallbacks.1
    { action := some "UPDATE", reason := some "r",
      is_direct_conflict := some false } "e2" rfl⟩

/-!  Conflict application and the search admission predicate
(hivemind/conflict/resolver.py `apply_conflict_resolution`,
hivemind/server/tools/search_knowledge.py `_search`).  -/

/-- Embedding of the database effect of `apply_conflict_resolution`
(resolver.py lines 236-336): `UPDATE` sets `expired_at = now` on the
existing row (id and tenant scoped); `VERSION_FORK` sets
`invalid_at = now`; `NOOP`, `ADD` and anything else leave the table
unchanged. -/
def apply_conflict_resolution (action existing_item_id org_id : String)
    (now : Nat) (db : List KnowledgeRow) : List KnowledgeRow :=
  if action == "UPDATE" then
    db.map fun r =>
      if r.rid == existing_item_id && r.org_id == org_id then
        { r with expired_at := some now }
      else r
  else if action == "NOOP" then db
  else if action == "VERSION_FORK" then
    db.map fun r =>
      if r.rid == existing_item_id && r.org_id == org_id then
        { r with invalid_at := some now }
      else r
  else db

/-- The row-level admission predicate of the vector CTE of `_search`
(search_knowledge.py lines 375-406): org isolation, not soft-deleted, has
an embedding, the optional category filter, and — only when `at_time` was
provided — the three conditions of `build_temporal_filter`. -/
def searchVectorPred (org : String) (category : Option String)
    (at_time : Option Nat) (r : KnowledgeRow) : Bool :=
  (r.org_id == org || r.is_public) && r.deleted_at.isNone &&
    r.has_embedding &&
    (match category with | none => true | some c => r.category == c) &&
    (match at_time with | none => true | some t => build_temporal_filter t r)

/-- The existing item of the C2 scenario (current, no world-time bounds). -/
def itemA : KnowledgeRow :=
  { rid := "A", org_id := "org1", is_public := false,
    content := "Foo bar baz", content_hash := "hA", category := "general",
    has_embedding := true, expired_at := none, valid_at := none,
    invalid_at := none, deleted_at := none, retrieval_count := 0,
    helpful_count := 0, not_helpful_count := 0 }

/-- The freshly inserted item of the C2 scenario. -/
def itemNew : KnowledgeRow :=
  { rid := "N", org_id := "org1", is_public := false,
    content := "Foo bar baz, improved", content_hash := "hN",
    category := "general", has_embedding := true, expired_at := none,
    valid_at := none, invalid_at := none, deleted_at := none,
    retrieval_count := 0, helpful_count := 0, not_helpful_count := 0 }

/-- C2 counterexample: after an `UPDATE` resolution expires item A and the
new item is inserted, a search *without* `at_time` still admits A — its
WHERE clause applies no `expired_at` condition — so a query matching both
contents can still return A's id, falsifying "never A's". -/
theorem update_supersede_counterexample :
    ((apply_conflict_resolution "UPDATE" "A" "org1" 100 [itemA] ++ [itemNew]
        ).filter (searchVectorPred "org1" none none)).map
        (fun r => r.rid) = ["A", "N"] ∧
    (apply_conflict_resolution "UPDATE" "A" "org1" 100 [itemA]).map
        (fun r => r.expired_at) = [some 100] := by
  constructor
  · rfl
  · rfl

/-- C2 amended: `UPDATE` sets `expired_at = now` on the existing tenant row;
the point-in-time search (`at_time` provided) then excludes the expired row
at every query time and admits the freshly inserted current row; a search
without `at_time` applies no `expired_at` condition and may still admit the
superseded row. -/
theorem update_supersede_amended
    (db : List KnowledgeRow) (A : KnowledgeRow) (org : String) (now : Nat)
    (hA : A ∈ db) (horg : A.org_id = org) :
    ({ A with expired_at := some now } ∈
      apply_conflict_resolution "UPDATE" A.rid org now db) ∧
    (∀ (T : Nat) (cat : Option String),
      searchVectorPred org cat (some T)
        { A with expired_at := some now } = false) ∧
    (∀ N : KnowledgeRow, N.org_id = org → N.deleted_at = none →
      N.has_embedding = true → N.expired_at = none → N.valid_at = none →
      N.invalid_at = none →
      ∀ T : Nat, searchVectorPred org none (some T) N = true) := by
  refine ⟨?_, ?_, ?_⟩
  · rw [apply_conflict_resolution]
    simp only [beq_self_eq_true, Bool.true_and, if_pos]
    exact List.mem_map.mpr ⟨A, hA, by simp [horg]⟩
  · intro T cat
    simp [searchVectorPred, build_temporal_filter, expiredAtCond]
  · intro N h1 h2 h3 h4 h5 h6 T
    simp [searchVectorPred, build_temporal_filter, expiredAtCond,
      validAtCond, invalidAtCond, h1, h2, h3, h4, h5, h6]

/-- C2 witness: the amended theorem at the concrete two-row scenario. -/
theorem update_supersede_amended_witness :
    ({ itemA with expired_at := some 100 } ∈
      apply_conflict_resolution "UPDATE" itemA.rid "org1" 100 [itemA]) ∧
    searchVectorPred "org1" none (some 100)
      { itemA with expired_at := some 100 } = false ∧
    searchVectorPred "org1" none (some 100) itemNew = true := by
  have h := update_supersede_amended [itemA] itemA "org1" 100
    (List.mem_singleton.mpr rfl) rfl
  exact ⟨h.1, h.2.1 100 none, h.2.2 itemNew rfl rfl rfl rfl rfl rfl 100⟩

/-!  Insert routing of `add_knowledge`
(hivemind/server/tools/add_knowledge.py, lines 207-328).  -/

/-- What the tail of `add_knowledge` did with the contribution: the status
string returned to the caller, which table (if any) received a row, and the
final tags list. -/
structure AddRoute where
  status : String
  inserted_knowledge : Bool
  inserted_pending : Bool
  final_tags : List String
  deriving Repr, DecidableEq

/-- The tag adjustment of the `FLAGGED_FOR_REVIEW` branch
(add_knowledge.py lines 249-257): append `conflict_flagged` if absent. -/
def flagTags (tags : List String) : List String :=
  if tags.contains "conflict_flagged" then tags else tags ++ ["conflict_flagged"]

/-- Step 5b of `add_knowledge` (lines 261-328): an AutoApproveRule matching
the caller's (tenant, category) inserts directly into `knowledge_items`
with status `auto_approved`; otherwise the row goes to
`pending_contributions` with status `queued`. -/
def insertStep (auto_approve : Bool) (tags : List String) : AddRoute :=
  if auto_approve then
    { status := "auto_approved", inserted_knowledge := true,
      inserted_pending := false, final_tags := tags }
  else
    { status := "queued", inserted_knowledge := false,
      inserted_pending := true, final_tags := tags }

/-- Embedding of the routing control flow of `add_knowledge` after the dedup
pipeline (lines 216-328), as a function of the dedup action, the conflict
resolution action, the caller's tags, and whether an AutoApproveRule matched
the caller's (tenant, category).  `NOOP` aborts before any insert; every
other path — including `FLAGGED_FOR_REVIEW` — falls through to step 5b. -/
def add_knowledge_route (dedup_action resolution_action : String)
    (tags : List String) (auto_approve : Bool) : AddRoute :=
  if dedup_action == "DUPLICATE" then
    if resolution_action == "NOOP" then
      { status := "duplicate_detected", inserted_knowledge := false,
        inserted_pending := false, final_tags := tags }
    else if resolution_action == "FLAGGED_FOR_REVIEW" then
      insertStep auto_approve (flagTags tags)
    else
      insertStep auto_approve tags
  else insertStep auto_approve tags

/-- C1 (code bug): when the conflict resolver returns `FLAGGED_FOR_REVIEW`
and an AutoApproveRule matches the caller's (tenant, category), the
contribution is inserted directly into `knowledge_items` with status
`auto_approved` (carrying the `conflict_flagged` tag) and never reaches the
pending queue — the fall-through after tagging still runs the auto-approve
check, contradicting the spec ("skip auto-approve", "forces the pending
path") and the code's own comment ("insert as pending with a conflict flag
note"). -/
theorem flagged_review_autoapprove_bug :
    add_knowledge_route "DUPLICATE" "FLAGGED_FOR_REVIEW" [] true =
      { status := "auto_approved", inserted_knowledge := true,
        inserted_pending := false, final_tags := ["conflict_flagged"] } ∧
    (add_knowledge_route "DUPLICATE" "FLAGGED_FOR_REVIEW" [] true
      ).inserted_pending = false := by
  exact ⟨rfl, rfl⟩

/-!  report_outcome (hivemind/server/tools/report_outcome.py) and
`record_signal` (hivemind/quality/signals.py).  -/

/-- Embedding of a `quality_signals` row, with the fields `report_outcome`
reads and writes. -/
structure SignalRow where
  sid : String
  knowledge_item_id : String
  signal_type : String
  agent_id : Option String
  run_id : Option String
  deriving Repr, DecidableEq

/-- The two tables `report_outcome` touches. -/
structure OutcomeState where
  items : List KnowledgeRow
  signals : List SignalRow
  deriving Repr, DecidableEq

/-- What `report_outcome` returns: an MCP error or the success dict
`{status, item_id, outcome, signal_id}`. -/
inductive ReportResult where
  | err (message : String)
  | ok (status item_id outcome signal_id : String)
  deriving Repr, DecidableEq

/-- `_VALID_OUTCOMES` (report_outcome.py line 40). -/
def validOutcomes : List String := ["solved", "did_not_help"]

/-- `_OUTCOME_TO_SIGNAL` (report_outcome.py lines 43-46). -/
def outcomeToSignal (outcome : String) : String :=
  if outcome == "solved" then "outcome_solved" else "outcome_not_helpful"

/-- The outcome signal types of the dedup check
(report_outcome.py lines 163-165). -/
def outcomeSignalTypes : List String :=
  ["outcome_solved", "outcome_not_helpful"]

/-- The accessibility WHERE clause of `report_outcome` (lines 140-147):
id match, org isolation, not soft-deleted. -/
def accessPred (org item_id : String) (r : KnowledgeRow) : Bool :=
  r.rid == item_id && (r.org_id == org || r.is_public) &&
    r.deleted_at.isNone

/-- Whether the rated item exists and is accessible to the calling org. -/
def itemAccessible (items : List KnowledgeRow) (org item_id : String) : Bool :=
  items.any (accessPred org item_id)

/-- The dedup-check predicate of `report_outcome` (lines 159-167): an
outcome-typed signal for the same `(item_id, run_id)`. -/
def outcomeSignalPred (item_id rid : String) (s : SignalRow) : Bool :=
  s.knowledge_item_id == item_id && s.run_id == some rid &&
    outcomeSignalTypes.contains s.signal_type

/-- The existing-signal lookup of the dedup check (`scalar_one_or_none`). -/
def findExistingOutcome (signals : List SignalRow) (item_id rid : String) :
    Option SignalRow :=
  signals.find? (outcomeSignalPred item_id rid)

/-- The per-row counter update of `report_outcome` (lines 197-204):
increment `helpful_count` for `solved`, `not_helpful_count` otherwise, on
the row with the rated id. -/
def bumpRow (outcome item_id : String) (r : KnowledgeRow) : KnowledgeRow :=
  if r.rid == item_id then
    if outcome == "solved" then
      { r with helpful_count := r.helpful_count + 1 }
    else
      { r with not_helpful_count := r.not_helpful_count + 1 }
  else r

/-- Embedding of `report_outcome` (report_outcome.py lines 82-221), given
the caller identity from the bearer token and the fresh uuid
`record_signal` would draw: validation, accessibility check, the
check-then-insert dedup on `(item_id, run_id)` for outcome types, then the
signal insert (`record_signal`, signals.py lines 23-65) and the atomic
counter increment. -/
def report_outcome (st : OutcomeState) (org : String)
    (agent_id : Option String) (item_id outcome : String)
    (run_id : Option String) (fresh_signal_id : String) :
    ReportResult × OutcomeState :=
  if !(validOutcomes.contains outcome) then
    (ReportResult.err ("Invalid outcome " ++ outcome ++ "."), st)
  else if !(itemAccessible st.items org item_id) then
    (ReportResult.err ("Knowledge item " ++ item_id ++ " not found."), st)
  else
    let dedup := match run_id with
      | some rid => findExistingOutcome st.signals item_id rid
      | none => none
    match dedup with
    | some s => (ReportResult.ok "already_recorded" item_id outcome s.sid, st)
    | none =>
      let newSignal : SignalRow :=
        { sid := fresh_signal_id, knowledge_item_id := item_id,
          signal_type := outcomeToSignal outcome, agent_id := agent_id,
          run_id := run_id }
      (ReportResult.ok "recorded" item_id outcome fresh_signal_id,
        { items := st.items.map (bumpRow outcome item_id),
          signals := st.signals ++ [newSignal] })

/-- The number of outcome-typed signal rows for `(item_id, run_id)`. -/
def countOutcomeSignals (signals : List SignalRow) (item_id rid : String) :
    Nat :=
  (signals.filter (outcomeSignalPred item_id rid)).length

/-- Counter increments do not change a row's id, tenant, visibility or
deletion state, so accessibility is unchanged. -/
theorem accessPred_bumpRow (org item_id o i : String) (r : KnowledgeRow) :
    accessPred org item_id (bumpRow o i r) = accessPred org item_id r := by
  rcases r with ⟨rid, orgid, pub, c, ch, cat, emb, ea, va, ia, da, n1, n2, n3⟩
  unfold bumpRow accessPred
  by_cases h1 : (rid == i) = true <;> by_cases h2 : (o == "solved") = true <;>
    simp [h1, h2]

/-- The counter update leaves `itemAccessible` unchanged. -/
theorem itemAccessible_bump (items : List KnowledgeRow)
    (org item_id o i : String) :
    itemAccessible (items.map (bumpRow o i)) org item_id =
      itemAccessible items org item_id := by
  unfold itemAccessible
  induction items with
  | nil => rfl
  | cons r t ih =>
    simp only [List.map_cons, List.any_cons, accessPred_bumpRow, ih]

/-- A `find?` over an appended list starts with the left part. -/
theorem find?_append_left_none {α : Type} (p : α → Bool) (l1 l2 : List α)
    (h : l1.find? p = none) : (l1 ++ l2).find? p = l2.find? p := by
  induction l1 with
  | nil => rfl
  | cons a t ih =>
    rw [List.find?_cons] at h
    cases hp : p a with
    | true => rw [hp] at h; exact absurd h (by simp)
    | false =>
      rw [hp] at h
      rw [List.cons_append, List.find?_cons, hp]
      exact ih h

/-- Zero matching rows means the dedup lookup finds nothing. -/
theorem count_zero_find_none (signals : List SignalRow) (item_id rid : String)
    (h : countOutcomeSignals signals item_id rid = 0) :
    findExistingOutcome signals item_id rid = none := by
  unfold countOutcomeSignals at h
  unfold findExistingOutcome
  rw [List.find?_eq_none]
  intro s hs hp
  have : s ∈ signals.filter (outcomeSignalPred item_id rid) :=
    List.mem_filter.mpr ⟨hs, hp⟩
  rw [List.length_eq_zero] at h
  rw [h] at this
  exact absurd this (List.not_mem_nil s)

/-- C9: from a state with no outcome signal for `(item_id, run_id)` and an
accessible item, the first `report_outcome` records exactly one signal row;
every further repetition — any valid outcome value, any fresh id, any
agent — returns `already_recorded` with the first call's signal id, leaves
the state exactly unchanged, and the row count for `(item_id, run_id)`
stays one. -/
theorem report_outcome_idempotent
    (st0 : OutcomeState) (org : String) (agent : Option String)
    (item_id outcome rid fid : String)
    (hout : validOutcomes.contains outcome = true)
    (hacc : itemAccessible st0.items org item_id = true)
    (hcount : countOutcomeSignals st0.signals item_id rid = 0) :
    (report_outcome st0 org agent item_id outcome (some rid) fid).1 =
      ReportResult.ok "recorded" item_id outcome fid ∧
    countOutcomeSignals
      (report_outcome st0 org agent item_id outcome (some rid) fid).2.signals
      item_id rid = 1 ∧
    (∀ (outcome2 fid2 : String) (agent2 : Option String),
      validOutcomes.contains outcome2 = true →
      report_outcome
          (report_outcome st0 org agent item_id outcome (some rid) fid).2
          org agent2 item_id outcome2 (some rid) fid2 =
        (ReportResult.ok "already_recorded" item_id outcome2 fid,
          (report_outcome st0 org agent item_id outcome (some rid) fid).2)) := by
  have hfind := count_zero_find_none st0.signals item_id rid hcount
  have hsigtype : outcomeToSignal outcome ∈ outcomeSignalTypes := by
    unfold outcomeToSignal outcomeSignalTypes
    by_cases h : (outcome == "solved") = true <;> simp [h]
  have hnewpred : outcomeSignalPred item_id rid
      { sid := fid, knowledge_item_id := item_id,
        signal_type := outcomeToSignal outcome, agent_id := agent,
        run_id := some rid } = true := by
    unfold outcomeSignalPred
    simp [hsigtype]
  have hstep : report_outcome st0 org agent item_id outcome (some rid) fid =
      (ReportResult.ok "recorded" item_id outcome fid,
        { items := st0.items.map (bumpRow outcome item_id),
          signals := st0.signals ++
            [{ sid := fid, knowledge_item_id := item_id,
               signal_type := outcomeToSignal outcome, agent_id := agent,
               run_id := some rid }] }) := by
    unfold report_outcome
    rw [hout, hacc]
    simp only [Bool.not_true, Bool.false_eq_true, if_false]
    unfold findExistingOutcome at hfind
    simp [findExistingOutcome, hfind]
  refine ⟨by rw [hstep], ?_, ?_⟩
  · rw [hstep]
    unfold countOutcomeSignals
    rw [List.filter_append]
    have h0 : st0.signals.filter (outcomeSignalPred item_id rid) = [] := by
      unfold countOutcomeSignals at hcount
      exact List.length_eq_zero.mp hcount
    rw [h0]
    simp [hnewpred]
  · intro outcome2 fid2 agent2 hout2
    rw [hstep]
    unfold report_outcome
    rw [hout2]
    simp only [Bool.not_true, Bool.false_eq_true, if_false]
    rw [itemAccessible_bump, hacc]
    simp only [Bool.not_true, Bool.false_eq_true, if_false]
    unfold findExistingOutcome
    rw [find?_append_left_none _ _ _ hfind]
    rw [List.find?_cons, hnewpred]

/-- A one-row item table for the C9 witness. -/
def ratedRow : KnowledgeRow :=
  { rid := "item1", org_id := "orgA", is_public := false, content := "c",
    content_hash := "h", category := "general", has_embedding := true,
    expired_at := none, valid_at := none, invalid_at := none,
    deleted_at := none, retrieval_count := 0, helpful_count := 0,
    not_helpful_count := 0 }

/-- C9 witness: the theorem at a concrete state — first call records, the
repeat returns `already_recorded` with the first signal id and an unchanged
state. -/
theorem report_outcome_idempotent_witness :
    (report_outcome { items := [ratedRow], signals := [] } "orgA" none
        "item1" "solved" (some "run1") "sig1").1 =
      ReportResult.ok "recorded" "item1" "solved" "sig1" ∧
    countOutcomeSignals
      (report_outcome { items := [ratedRow], signals := [] } "orgA" none
        "item1" "solved" (some "run1") "sig1").2.signals "item1" "run1" = 1 ∧
    (∀ (outcome2 fid2 : String) (agent2 : Option String),
      validOutcomes.contains outcome2 = true →
      report_outcome
          (report_outcome { items := [ratedRow], signals := [] } "orgA" none
            "item1" "solved" (some "run1") "sig1").2
          "orgA" agent2 "item1" outcome2 (some "run1") fid2 =
        (ReportResult.ok "already_recorded" "item1" outcome2 "sig1",
          (report_outcome { items := [ratedRow], signals := [] } "orgA" none
            "item1" "solved" (some "run1") "sig1").2)) :=
  report_outcome_idempotent { items := [ratedRow], signals := [] } "orgA"
    none "item1" "solved" "run1" "sig1" (by decide) (by decide) rfl

/-!  Dedup pipeline (hivemind/dedup/pipeline.py).  Stage 1 (the pgvector
query) and stage 2 (the MinHash index) are I/O: their results — the cosine
candidate list, already sorted ascending by distance, and the MinHash id
set — are inputs here; stage 3's LLM is a verdict-valued function.  -/

/-- A dedup candidate dict (`id` and `content` are the keys the pipeline
reads). -/
structure DedupCand where
  cid : String
  content : String
  deriving Repr, DecidableEq

/-- A parsed stage-3 LLM verdict (`confirm_duplicate_llm`,
hivemind/dedup/llm_stage.py): the parse fallback and every failure branch
produce `is_duplicate = false, confidence = 0`. -/
structure LLMVerdict where
  is_duplicate : Bool
  confidence : ℚ
  reason : String
  deriving Repr, DecidableEq

/-- The loop state of the stage-3 scan (pipeline.py lines 107-121):
`best_match_id`, `best_confidence` (initially 0.0), `best_reason`,
`confirmed`. -/
structure DedupLoopState where
  best_match_id : Option String
  best_confidence : ℚ
  best_reason : String
  confirmed : Bool
  deriving Repr, DecidableEq

/-- One iteration of the stage-3 loop (pipeline.py lines 112-121): a
confirmed candidate updates the best only when its confidence is *strictly*
greater than the running best. -/
def dedupLoopStep (llm : DedupCand → LLMVerdict) (st : DedupLoopState)
    (c : DedupCand) : DedupLoopState :=
  let result := llm c
  if result.is_duplicate then
    if result.confidence > st.best_confidence then
      { best_match_id := some c.cid, best_confidence := result.confidence,
        best_reason := result.reason, confirmed := true }
    else st
  else st

/-- The outcome dict of `run_dedup_pipeline`. -/
structure DedupOutcome where
  action : String
  duplicate_of : Option String
  confidence : Option ℚ
  duplicates : List DedupCand
  stages_run : List String
  deriving Repr, DecidableEq

/-- The stage-2 intersection (pipeline.py lines 76-97): candidates of the
cosine stage whose id is also a MinHash hit (for members of the cosine list
the `cosine_ids ∩ minhash_ids` membership reduces to a MinHash-id test). -/
def dedupIntersection (cosine_candidates : List DedupCand)
    (minhash_ids : List String) : List DedupCand :=
  cosine_candidates.filter fun c => minhash_ids.contains c.cid

/-- The final stage-3 loop state: the fold of `dedupLoopStep` over the top
3 intersection candidates (`llm_candidates`, pipeline.py line 105), from
the initial `(None, 0.0, "", False)` state. -/
def dedupFinalState (cosine_candidates : List DedupCand)
    (minhash_ids : List String) (llm : DedupCand → LLMVerdict) :
    DedupLoopState :=
  ((dedupIntersection cosine_candidates minhash_ids).take 3).foldl
    (dedupLoopStep llm)
    { best_match_id := none, best_confidence := 0, best_reason := "",
      confirmed := false }

/-- Embedding of `run_dedup_pipeline` (pipeline.py lines 33-149): empty
stage results short-circuit to ADD; otherwise up to 3 intersection
candidates are LLM-confirmed and the loop's best is returned as DUPLICATE
when `confirmed` was set. -/
def run_dedup_pipeline (cosine_candidates : List DedupCand)
    (minhash_ids : List String) (llm : DedupCand → LLMVerdict) :
    DedupOutcome :=
  if cosine_candidates.isEmpty then
    { action := "ADD", duplicate_of := none, confidence := none,
      duplicates := [], stages_run := ["cosine"] }
  else if (dedupIntersection cosine_candidates minhash_ids).isEmpty then
    { action := "ADD", duplicate_of := none, confidence := none,
      duplicates := cosine_candidates, stages_run := ["cosine", "minhash"] }
  else if (dedupFinalState cosine_candidates minhash_ids llm).confirmed then
    { action := "DUPLICATE",
      duplicate_of := (dedupFinalState cosine_candidates minhash_ids llm).best_match_id,
      confidence := some (dedupFinalState cosine_candidates minhash_ids llm).best_confidence,
      duplicates := dedupIntersection cosine_candidates minhash_ids,
      stages_run := ["cosine", "minhash", "llm"] }
  else
    { action := "ADD", duplicate_of := none,
      confidence := some (dedupFinalState cosine_candidates minhash_ids llm).best_confidence,
      duplicates := dedupIntersection cosine_candidates minhash_ids,
      stages_run := ["cosine", "minhash", "llm"] }

/-- C3 counterexample: a single candidate that the LLM confirms
(`is_duplicate = true`) with confidence 0 — the strict `>` against the
initial `best_confidence = 0.0` never fires, so the outcome is ADD, not the
DUPLICATE the claim demands "for any confidence value, including 0". -/
theorem dedup_zero_confidence_counterexample :
    run_dedup_pipeline [{ cid := "a", content := "x" }] ["a"]
        (fun _ => { is_duplicate := true, confidence := 0, reason := "dup" }) =
      { action := "ADD", duplicate_of := none, confidence := some 0,
        duplicates := [{ cid := "a", content := "x" }],
        stages_run := ["cosine", "minhash", "llm"] } := by
  decide

/-- The stage-3 fold invariant: the running best confidence never
decreases and bounds every confirmed candidate's confidence; `confirmed`
is set exactly when some candidate strictly beats the initial best; and a
confirmed final state either is the initial state or records a candidate
that attains the final best confidence. -/
theorem dedupLoop_invariant (llm : DedupCand → LLMVerdict)
    (l : List DedupCand) (st : DedupLoopState) :
    st.best_confidence ≤ (l.foldl (dedupLoopStep llm) st).best_confidence ∧
    (∀ c ∈ l, (llm c).is_duplicate = true →
      (llm c).confidence ≤ (l.foldl (dedupLoopStep llm) st).best_confidence) ∧
    ((l.foldl (dedupLoopStep llm) st).confirmed =
      (st.confirmed || l.any (fun c =>
        (llm c).is_duplicate && decide (st.best_confidence < (llm c).confidence)))) ∧
    ((l.foldl (dedupLoopStep llm) st).confirmed = true →
      l.foldl (dedupLoopStep llm) st = st ∨
      ∃ c ∈ l, (llm c).is_duplicate = true ∧
        (llm c).confidence = (l.foldl (dedupLoopStep llm) st).best_confidence ∧
        (l.foldl (dedupLoopStep llm) st).best_match_id = some c.cid ∧
        st.best_confidence < (l.foldl (dedupLoopStep llm) st).best_confidence) := by
  induction l generalizing st with
  | nil =>
    refine ⟨le_refl _, ?_, by simp, fun _ => Or.inl rfl⟩
    intro c hc
    exact absurd hc (List.not_mem_nil c)
  | cons c t ih =>
    by_cases hd : (llm c).is_duplicate = true
    · by_cases hc : st.best_confidence < (llm c).confidence
      · -- the update branch: the loop state is replaced
        have hstep : dedupLoopStep llm st c =
            { best_match_id := some c.cid,
              best_confidence := (llm c).confidence,
              best_reason := (llm c).reason, confirmed := true } := by
          unfold dedupLoopStep
          simp [hd, hc]
        have ih' := ih (dedupLoopStep llm st c)
        rw [hstep] at ih'
        obtain ⟨ih1, ih2, ih3, ih4⟩ := ih'
        rw [List.foldl_cons, hstep]
        refine ⟨le_trans (le_of_lt hc) ih1, ?_, ?_, ?_⟩
        · intro c' hc' hdup'
          rcases List.mem_cons.mp hc' with h | h
          · subst h
            exact le_trans (le_refl _) ih1
          · exact ih2 c' h hdup'
        · rw [ih3]
          simp [hd, hc]
        · intro hconf
          rcases ih4 hconf with heq | ⟨c', hc', hdup', hconf', hid', hlt'⟩
          · right
            refine ⟨c, List.mem_cons_self c t, hd, ?_, ?_, ?_⟩
            · rw [heq]
            · rw [heq]
            · rw [heq]
              exact hc
          · right
            exact ⟨c', List.mem_cons_of_mem c hc',
              hdup', hconf', hid', lt_trans hc hlt'⟩
      · -- confirmed candidate that does not beat the running best
        have hstep : dedupLoopStep llm st c = st := by
          unfold dedupLoopStep
          simp [hd]
          intro h
          exact absurd h hc
        have ih' := ih (dedupLoopStep llm st c)
        rw [hstep] at ih'
        obtain ⟨ih1, ih2, ih3, ih4⟩ := ih'
        rw [List.foldl_cons, hstep]
        refine ⟨ih1, ?_, ?_, ?_⟩
        · intro c' hcmem hdup'
          rcases List.mem_cons.mp hcmem with h | h
          · subst h
            exact le_trans (le_of_not_lt hc) ih1
          · exact ih2 c' h hdup'
        · rw [ih3]
          have hnb : ((llm c).is_duplicate &&
              decide (st.best_confidence < (llm c).confidence)) = false := by
            rw [hd, Bool.true_and, decide_eq_false hc]
          rw [List.any_cons, hnb, Bool.false_or]
        · intro hconf
          rcases ih4 hconf with heq | ⟨c', hcmem', hdup', hconf', hid', hlt'⟩
          · exact Or.inl heq
          · exact Or.inr ⟨c', List.mem_cons_of_mem c hcmem',
              hdup', hconf', hid', hlt'⟩
    · -- unconfirmed candidate: no change
      have hstep : dedupLoopStep llm st c = st := by
        unfold dedupLoopStep
        simp [hd]
      have ih' := ih (dedupLoopStep llm st c)
      rw [hstep] at ih'
      obtain ⟨ih1, ih2, ih3, ih4⟩ := ih'
      rw [List.foldl_cons, hstep]
      refine ⟨ih1, ?_, ?_, ?_⟩
      · intro c' hcmem hdup'
        rcases List.mem_cons.mp hcmem with h | h
        · subst h
          exact absurd hdup' hd
        · exact ih2 c' h hdup'
      · rw [ih3]
        simp [hd]
      · intro hconf
        rcases ih4 hconf with heq | ⟨c', hcmem', hdup', hconf', hid', hlt'⟩
        · exact Or.inl heq
        · exact Or.inr ⟨c', List.mem_cons_of_mem c hcmem',
            hdup', hconf', hid', hlt'⟩

/-- C3 amended: an empty stage result short-circuits to ADD; the outcome is
DUPLICATE exactly when some of the up-to-3 LLM candidates is confirmed with
confidence *strictly above 0* (a confirmed candidate with confidence 0 is
ignored by the strict comparison against the initial best of 0.0); when
DUPLICATE, `duplicate_of` is a confirmed candidate of maximal confidence;
and the action is always DUPLICATE or ADD. -/
theorem dedup_pipeline_amended
    (cosine : List DedupCand) (minhash : List String)
    (llm : DedupCand → LLMVerdict) :
    (cosine = [] → (run_dedup_pipeline cosine minhash llm).action = "ADD") ∧
    (dedupIntersection cosine minhash = [] →
      (run_dedup_pipeline cosine minhash llm).action = "ADD") ∧
    ((run_dedup_pipeline cosine minhash llm).action = "DUPLICATE" ↔
      cosine ≠ [] ∧ dedupIntersection cosine minhash ≠ [] ∧
      ∃ c ∈ (dedupIntersection cosine minhash).take 3,
        (llm c).is_duplicate = true ∧ 0 < (llm c).confidence) ∧
    ((run_dedup_pipeline cosine minhash llm).action = "DUPLICATE" →
      ∃ c ∈ (dedupIntersection cosine minhash).take 3,
        (llm c).is_duplicate = true ∧
        (run_dedup_pipeline cosine minhash llm).duplicate_of = some c.cid ∧
        0 < (llm c).confidence ∧
        ∀ c' ∈ (dedupIntersection cosine minhash).take 3,
          (llm c').is_duplicate = true →
            (llm c').confidence ≤ (llm c).confidence) ∧
    ((run_dedup_pipeline cosine minhash llm).action = "DUPLICATE" ∨
      (run_dedup_pipeline cosine minhash llm).action = "ADD") := by
  obtain ⟨inv1, inv2, inv3, inv4⟩ :=
    dedupLoop_invariant llm ((dedupIntersection cosine minhash).take 3)
      { best_match_id := none, best_confidence := 0, best_reason := "",
        confirmed := false }
  dsimp only at inv1 inv2 inv3 inv4
  by_cases hcos : cosine.isEmpty = true
  · have hc : cosine = [] := List.isEmpty_iff.mp hcos
    have hrun : run_dedup_pipeline cosine minhash llm =
        { action := "ADD", duplicate_of := none, confidence := none,
          duplicates := [], stages_run := ["cosine"] } := by
      unfold run_dedup_pipeline
      rw [if_pos hcos]
    refine ⟨fun _ => by rw [hrun], fun _ => by rw [hrun], ?_, ?_,
      Or.inr (by rw [hrun])⟩
    · constructor
      · intro h
        rw [hrun] at h
        exact absurd (show ("ADD" : String) = "DUPLICATE" from h) (by decide)
      · rintro ⟨hne, -, -⟩
        exact absurd hc hne
    · intro h
      rw [hrun] at h
      exact absurd (show ("ADD" : String) = "DUPLICATE" from h) (by decide)
  · by_cases hint : (dedupIntersection cosine minhash).isEmpty = true
    · have h2 : dedupIntersection cosine minhash = [] :=
        List.isEmpty_iff.mp hint
      have hrun : run_dedup_pipeline cosine minhash llm =
          { action := "ADD", duplicate_of := none, confidence := none,
            duplicates := cosine, stages_run := ["cosine", "minhash"] } := by
        unfold run_dedup_pipeline
        rw [if_neg hcos, if_pos hint]
      refine ⟨fun _ => by rw [hrun], fun _ => by rw [hrun], ?_, ?_,
        Or.inr (by rw [hrun])⟩
      · constructor
        · intro h
          rw [hrun] at h
          exact absurd (show ("ADD" : String) = "DUPLICATE" from h) (by decide)
        · rintro ⟨-, hne, -⟩
          exact absurd h2 hne
      · intro h
        rw [hrun] at h
        exact absurd (show ("ADD" : String) = "DUPLICATE" from h) (by decide)
    · have hcne : cosine ≠ [] := by
        intro h
        rw [h] at hcos
        exact hcos rfl
      have hine : dedupIntersection cosine minhash ≠ [] := by
        intro h
        rw [h] at hint
        exact hint rfl
      by_cases hcf : (dedupFinalState cosine minhash llm).confirmed = true
      · have hrun : run_dedup_pipeline cosine minhash llm =
            { action := "DUPLICATE",
              duplicate_of := (dedupFinalState cosine minhash llm).best_match_id,
              confidence := some (dedupFinalState cosine minhash llm).best_confidence,
              duplicates := dedupIntersection cosine minhash,
              stages_run := ["cosine", "minhash", "llm"] } := by
          unfold run_dedup_pipeline
          rw [if_neg hcos, if_neg hint, if_pos hcf]
        have hany := hcf
        unfold dedupFinalState at hany
        rw [inv3, Bool.false_or] at hany
        have hcf' := hcf
        unfold dedupFinalState at hcf'
        refine ⟨fun h => absurd h hcne, fun h => absurd h hine, ?_, ?_, ?_⟩
        · constructor
          · intro _
            refine ⟨hcne, hine, ?_⟩
            obtain ⟨c, hcmem, hb⟩ := List.any_eq_true.mp hany
            rw [Bool.and_eq_true] at hb
            exact ⟨c, hcmem, hb.1, of_decide_eq_true hb.2⟩
          · intro _
            rw [hrun]
        · intro _
          rcases inv4 hcf' with heq | ⟨c, hcmem, hdup, hconfeq, hid, hlt⟩
          · rw [heq] at hcf'
            exact absurd hcf' (by decide)
          · refine ⟨c, hcmem, hdup, ?_, ?_, ?_⟩
            · rw [hrun]
              show (dedupFinalState cosine minhash llm).best_match_id = some c.cid
              unfold dedupFinalState
              exact hid
            · rw [hconfeq]
              exact hlt
            · intro c' hcmem' hdup'
              rw [hconfeq]
              exact inv2 c' hcmem' hdup'
        · left
          rw [hrun]
      · have hrun : run_dedup_pipeline cosine minhash llm =
            { action := "ADD", duplicate_of := none,
              confidence := some (dedupFinalState cosine minhash llm).best_confidence,
              duplicates := dedupIntersection cosine minhash,
              stages_run := ["cosine", "minhash", "llm"] } := by
          unfold run_dedup_pipeline
          rw [if_neg hcos, if_neg hint, if_neg hcf]
        refine ⟨fun _ => by rw [hrun], fun _ => by rw [hrun], ?_, ?_,
          Or.inr (by rw [hrun])⟩
        · constructor
          · intro h
            rw [hrun] at h
            exact absurd (show ("ADD" : String) = "DUPLICATE" from h) (by decide)
          · rintro ⟨-, -, c, hcmem, hdup, hpos⟩
            exfalso
            apply hcf
            show (dedupFinalState cosine minhash llm).confirmed = true
            unfold dedupFinalState
            rw [inv3, Bool.false_or]
            exact List.any_eq_true.mpr
              ⟨c, hcmem, by rw [hdup, Bool.true_and]; exact decide_eq_true hpos⟩
        · intro h
          rw [hrun] at h
          exact absurd (show ("ADD" : String) = "DUPLICATE" from h) (by decide)

/-- The LLM verdict function of the C3 witness: every candidate confirmed
with confidence 1. -/
def llmWitnessFn : DedupCand → LLMVerdict :=
  fun _ => { is_duplicate := true, confidence := 1, reason := "dup" }

/-- C3 witness: the amended theorem's DUPLICATE characterization at a
concrete run whose single candidate is confirmed with positive
confidence. -/
theorem dedup_pipeline_amended_witness :
    (run_dedup_pipeline [{ cid := "a", content := "x" }] ["a"]
      llmWitnessFn).action = "DUPLICATE" ∧
    (∃ c ∈ (dedupIntersection [{ cid := "a", content := "x" }] ["a"]).take 3,
      (llmWitnessFn c).is_duplicate = true ∧
      (run_dedup_pipeline [{ cid := "a", content := "x" }] ["a"]
        llmWitnessFn).duplicate_of = some c.cid ∧
      0 < (llmWitnessFn c).confidence ∧
      ∀ c' ∈ (dedupIntersection [{ cid := "a", content := "x" }] ["a"]).take 3,
        (llmWitnessFn c').is_duplicate = true →
          (llmWitnessFn c').confidence ≤ (llmWitnessFn c).confidence) :=
  ⟨by decide,
    (dedup_pipeline_amended [{ cid := "a", content := "x" }] ["a"]
      llmWitnessFn).2.2.2.1 (by decide)⟩

/-!  PII sanitizer (hivemind/pipeline/pii.py): code-block extraction,
reinjection, and `PIIPipeline.strip`.  Text is `List Char`; the regex
scans are embedded as left-to-right scanners with the same match
semantics; `uuid4` placeholder keys are explicit inputs; the Presidio
analyzer and anonymizer are external engines passed as parameters.  -/

/-- Split a character list at the first occurrence of `f`: returns the part
before the occurrence and the part after it (the occurrence consumed), or
`none` when `f` does not occur.  This is the non-greedy search the fenced
regex performs for the closing fence. -/
def splitAtFirst (f : List Char) : List Char → Option (List Char × List Char)
  | [] => none
  | c :: rest =>
    match f.isPrefixOf (c :: rest), splitAtFirst f rest with
    | true, _ => some ([], (c :: rest).drop f.length)
    | false, some (pre, post) => some (c :: pre, post)
    | false, none => none

/-- A prefix test is settled by the first `f.length` characters. -/
theorem isPrefixOf_append_of_le (f x r : List Char) (h : f.length ≤ x.length) :
    f.isPrefixOf (x ++ r) = f.isPrefixOf x := by
  induction f generalizing x with
  | nil => simp [List.isPrefixOf]
  | cons a fs ih =>
    cases x with
    | nil => simp at h
    | cons b xs =>
      simp only [List.cons_append, List.isPrefixOf, List.append_eq]
      rw [ih xs (by simpa using h)]

/-- A successful `splitAtFirst` is a decomposition of its input. -/
theorem splitAtFirst_decomp (f : List Char) : ∀ (s pre post : List Char),
    splitAtFirst f s = some (pre, post) → s = pre ++ f ++ post := by
  intro s
  induction s with
  | nil =>
    intro pre post h
    exact absurd h (by simp [splitAtFirst])
  | cons c rest ih =>
    intro pre post h
    rw [splitAtFirst] at h
    split at h
    · rename_i hp
      injection h with h'
      injection h' with h1 h2
      subst h1
      obtain ⟨t, ht⟩ := List.isPrefixOf_iff_prefix.mp hp
      rw [← h2, ← ht, List.nil_append, List.drop_left]
    · rename_i pre' post' hp hrec
      injection h with h'
      injection h' with h1 h2
      subst h1 h2
      rw [show c :: rest = c :: (pre' ++ f ++ post') from by
        rw [← ih pre' post' hrec]]
      simp
    · exact absurd h (by simp)

/-- Appending on the right does not disturb the first occurrence. -/
theorem splitAtFirst_append (f : List Char) : ∀ (a r pre post : List Char),
    splitAtFirst f a = some (pre, post) →
    splitAtFirst f (a ++ r) = some (pre, post ++ r) := by
  intro a
  induction a with
  | nil =>
    intro r pre post h
    exact absurd h (by simp [splitAtFirst])
  | cons c rest ih =>
    intro r pre post h
    rw [splitAtFirst] at h
    rw [List.cons_append, splitAtFirst]
    split at h
    · rename_i hp
      have hlen : f.length ≤ (c :: rest).length :=
        (List.isPrefixOf_iff_prefix.mp hp).length_le
      have hp2 : f.isPrefixOf (c :: (rest ++ r)) = true := by
        rw [show c :: (rest ++ r) = (c :: rest) ++ r from rfl,
          isPrefixOf_append_of_le f (c :: rest) r hlen]
        exact hp
      rw [hp2]
      injection h with h'
      injection h' with h1 h2
      subst h1
      have hdrop : (c :: (rest ++ r)).drop f.length =
          (c :: rest).drop f.length ++ r := by
        rw [show c :: (rest ++ r) = (c :: rest) ++ r from rfl]
        exact List.drop_append_of_le_length hlen
      rw [hdrop, h2]
    · rename_i pre' post' hp hrec
      have hlenr : f.length ≤ rest.length := by
        have hd := splitAtFirst_decomp f rest pre' post' hrec
        rw [hd]
        simp only [List.append_assoc, List.length_append]
        omega
      have hp2 : f.isPrefixOf (c :: (rest ++ r)) = false := by
        rw [show c :: (rest ++ r) = (c :: rest) ++ r from rfl,
          isPrefixOf_append_of_le f (c :: rest) r
            (by simp only [List.length_cons]; omega)]
        exact hp
      rw [hp2, ih r pre' post' hrec]
      injection h with h'
      injection h' with h1 h2
      subst h1 h2
      rfl
    · exact absurd h (by simp)

/-- Whether `k` occurs as a contiguous sublist of `s` (Python's `in`). -/
def containsSub (k : List Char) : List Char → Bool
  | [] => k.isEmpty
  | c :: rest => k.isPrefixOf (c :: rest) || containsSub k rest

/-- Non-occurrence propagates to the tail. -/
theorem containsSub_tail (k : List Char) (c : Char) (rest : List Char)
    (h : containsSub k (c :: rest) = false) : containsSub k rest = false := by
  rw [containsSub, Bool.or_eq_false_iff] at h
  exact h.2

/-- Non-occurrence refutes a prefix match. -/
theorem containsSub_head (k s : List Char) (hk : k ≠ [])
    (h : containsSub k s = false) : k.isPrefixOf s = false := by
  cases s with
  | nil =>
    rw [containsSub] at h
    cases k with
    | nil => exact absurd rfl hk
    | cons a t => rfl
  | cons c rest =>
    rw [containsSub, Bool.or_eq_false_iff] at h
    exact h.1

/-- The scanning worker of Python's `str.replace` (all occurrences,
left to right, the replaced span not rescanned), fuelled so the kernel can
evaluate it. -/
def replaceListGo (k v : List Char) : Nat → List Char → List Char
  | 0, s => s
  | _, [] => []
  | fuel + 1, c :: rest =>
    if k.isPrefixOf (c :: rest) then
      v ++ replaceListGo k v fuel ((c :: rest).drop k.length)
    else
      c :: replaceListGo k v fuel rest

/-- Python's `text.replace(k, v)` for a non-empty pattern `k` (the
placeholder keys are never empty). -/
def replaceList (k v s : List Char) : List Char :=
  if k.isEmpty then s else replaceListGo k v s.length s

/-- Replacing a pattern that does not occur is the identity (worker form). -/
theorem replaceListGo_not_contains (k v : List Char) (hk : k ≠ []) :
    ∀ (fuel : Nat) (s : List Char), containsSub k s = false →
      replaceListGo k v fuel s = s := by
  intro fuel
  induction fuel with
  | zero =>
    intro s _
    cases s <;> rfl
  | succ f ih =>
    intro s hs
    cases s with
    | nil => rfl
    | cons c rest =>
      rw [replaceListGo, containsSub_head k _ hk hs]
      simp only [Bool.false_eq_true, if_false]
      rw [ih rest (containsSub_tail k c rest hs)]

/-- Replacing a pattern that does not occur is the identity. -/
theorem replaceList_not_contains (k v s : List Char)
    (h : containsSub k s = false) : replaceList k v s = s := by
  unfold replaceList
  by_cases hk : k.isEmpty = true
  · rw [if_pos hk]
  · rw [if_neg hk]
    exact replaceListGo_not_contains k v
      (by cases k with | nil => exact absurd rfl hk | cons a t => simp)
      s.length s h

/-- The single-occurrence replacement law (worker form): if `k` occurs
nowhere in `a ++ k.dropLast` (so in particular not earlier than the shown
occurrence, nor straddling into it) and nowhere in `b`, replacing rewrites
exactly the shown occurrence. -/
theorem replaceListGo_single (k v : List Char) (hk : k ≠ []) :
    ∀ (fuel : Nat) (a b : List Char),
      (a ++ k ++ b).length ≤ fuel →
      containsSub k (a ++ k.dropLast) = false →
      containsSub k b = false →
      replaceListGo k v fuel (a ++ k ++ b) = a ++ v ++ b := by
  intro fuel
  induction fuel with
  | zero =>
    intro a b hlen _ _
    exfalso
    have hkl : 0 < k.length := List.length_pos.mpr hk
    simp only [List.append_assoc, List.length_append] at hlen
    omega
  | succ f ih =>
    intro a b hlen ha hb
    cases a with
    | nil =>
      simp only [List.nil_append] at hlen ⊢
      obtain ⟨kc, kt, rfl⟩ : ∃ kc kt, k = kc :: kt := by
        cases k with
        | nil => exact absurd rfl hk
        | cons x t => exact ⟨x, t, rfl⟩
      have hp : (kc :: kt).isPrefixOf (kc :: (kt ++ b)) = true := by
        rw [show kc :: (kt ++ b) = (kc :: kt) ++ b from rfl]
        exact List.isPrefixOf_iff_prefix.mpr (List.prefix_append _ b)
      rw [show (kc :: kt) ++ b = kc :: (kt ++ b) from rfl, replaceListGo,
        if_pos hp]
      rw [show (kc :: (kt ++ b)).drop (kc :: kt).length = b from by
        simpa using List.drop_left (kc :: kt) b]
      rw [replaceListGo_not_contains _ v hk f b hb]
    | cons c t =>
      have hnp : k.isPrefixOf (c :: (t ++ k ++ b)) = false := by
        have hx : k.isPrefixOf ((c :: (t ++ k.dropLast)) ++
            ([k.getLast hk] ++ b)) = k.isPrefixOf (c :: (t ++ k.dropLast)) := by
          apply isPrefixOf_append_of_le
          simp only [List.length_cons, List.length_append,
            List.length_dropLast]
          have hkl : 0 < k.length := List.length_pos.mpr hk
          omega
        have heq : (c :: (t ++ k.dropLast)) ++ ([k.getLast hk] ++ b) =
            c :: (t ++ k ++ b) := by
          rw [List.cons_append]
          congr 1
          rw [List.append_assoc, ← List.append_assoc k.dropLast,
            List.dropLast_append_getLast hk, ← List.append_assoc]
        rw [← heq, hx]
        apply containsSub_head k _ hk
        simpa using ha
      have hnotp : ¬ (k.isPrefixOf (c :: (t ++ k ++ b)) = true) := by
        rw [hnp]
        simp
      rw [show (c :: t) ++ k ++ b = c :: (t ++ k ++ b) from by simp,
        replaceListGo, if_neg hnotp]
      rw [ih t b (by
          simp only [List.append_assoc, List.length_append,
            List.length_cons] at hlen ⊢
          omega)
        (containsSub_tail k c _ (by simpa using ha)) hb]
      simp

/-- The single-occurrence replacement law. -/
theorem replaceList_single (k v a b : List Char) (hk : k ≠ [])
    (ha : containsSub k (a ++ k.dropLast) = false)
    (hb : containsSub k b = false) :
    replaceList k v (a ++ k ++ b) = a ++ v ++ b := by
  unfold replaceList
  rw [if_neg (by cases k with | nil => exact absurd rfl hk | cons x t => simp)]
  exact replaceListGo_single k v hk (a ++ k ++ b).length a b (le_refl _) ha hb

/-- A decomposition of a text into a leading chunk and a list of
`(placeholder key, code block, trailing chunk)` triples.  `interleaveKeys`
is the narrative (keys in place of blocks); `interleaveBlocks` is the
original text. -/
def interleaveKeys : List Char →
    List ((List Char) × (List Char) × (List Char)) → List Char
  | t0, [] => t0
  | t0, (k, _, t) :: ps => t0 ++ k ++ interleaveKeys t ps

/-- The original text of a decomposition: blocks in place of keys. -/
def interleaveBlocks : List Char →
    List ((List Char) × (List Char) × (List Char)) → List Char
  | t0, [] => t0
  | t0, (_, b, t) :: ps => t0 ++ b ++ interleaveBlocks t ps

/-- Freshness of the placeholder keys of a decomposition, in exactly the
shape the reinjection fold consumes them: each key is non-empty, occurs in
the narrative only at its own site (no occurrence in the preceding text —
including straddling into the key — and none in the rest of the
narrative), with the earlier keys' sites already replaced by their
blocks.  `uuid4`-generated keys satisfy this with overwhelming
probability; it is hypothesis, not theorem, because the keys are external
randomness. -/
def freshFor : List Char →
    List ((List Char) × (List Char) × (List Char)) → Bool
  | _, [] => true
  | t0, (k, b, t) :: ps =>
    !k.isEmpty && !containsSub k (t0 ++ k.dropLast) &&
      !containsSub k (interleaveKeys t ps) && freshFor (t0 ++ b ++ t) ps

/-- Pushing a replaced block into the leading chunk. -/
theorem interleaveKeys_absorb (x b t : List Char)
    (ps : List ((List Char) × (List Char) × (List Char))) :
    x ++ b ++ interleaveKeys t ps = interleaveKeys (x ++ b ++ t) ps := by
  cases ps with
  | nil => rfl
  | cons p rest =>
    obtain ⟨k2, b2, t2⟩ := p
    rw [interleaveKeys, interleaveKeys]
    simp [List.append_assoc]

/-- Pushing a replaced block into the leading chunk, original-text side. -/
theorem interleaveBlocks_absorb (x b t : List Char)
    (ps : List ((List Char) × (List Char) × (List Char))) :
    x ++ b ++ interleaveBlocks t ps = interleaveBlocks (x ++ b ++ t) ps := by
  cases ps with
  | nil => rfl
  | cons p rest =>
    obtain ⟨k2, b2, t2⟩ := p
    rw [interleaveBlocks, interleaveBlocks]
    simp [List.append_assoc]

/-- The reinjection fold of `_reinject_code_blocks` over explicit
`(key, block)` pairs. -/
def reinjectFold (pmap : List ((List Char) × (List Char)))
    (text : List Char) : List Char :=
  pmap.foldl (fun t kv => replaceList kv.1 kv.2 t) text

/-- Reinjection restores the original text from the narrative when the
keys are fresh: the fold replaces each key, in insertion order, by its
block. -/
theorem reinjectFold_restores :
    ∀ (ps : List ((List Char) × (List Char) × (List Char))) (t0 : List Char),
      freshFor t0 ps = true →
      reinjectFold (ps.map fun x => (x.1, x.2.1)) (interleaveKeys t0 ps) =
        interleaveBlocks t0 ps := by
  intro ps
  induction ps with
  | nil => intro t0 _; rfl
  | cons p rest ih =>
    intro t0 hfresh
    obtain ⟨k, b, t⟩ := p
    rw [freshFor] at hfresh
    simp only [Bool.and_eq_true, Bool.not_eq_true',
      Bool.not_eq_eq_eq_not, Bool.not_true] at hfresh
    obtain ⟨⟨⟨hk1, hk2⟩, hk3⟩, hk4⟩ := hfresh
    have hkne : k ≠ [] := by
      cases k with
      | nil => simp at hk1
      | cons a aa => simp
    rw [interleaveKeys, interleaveBlocks, List.map_cons, reinjectFold,
      List.foldl_cons]
    have hrepl : replaceList k b (t0 ++ k ++ interleaveKeys t rest) =
        t0 ++ b ++ interleaveKeys t rest :=
      replaceList_single k b t0 (interleaveKeys t rest) hkne hk2 hk3
    rw [hrepl, interleaveKeys_absorb]
    have := ih (t0 ++ b ++ t) hk4
    rw [reinjectFold] at this
    rw [this, ← interleaveBlocks_absorb]

/-- The opening/closing fence of a triple-backtick block. -/
def tick3 : List Char := ['`', '`', '`']

/-- The opening/closing fence of a triple-tilde block. -/
def tilde3 : List Char := ['~', '~', '~']

/-- The left-to-right scan of the fenced-block regex sub
(`_FENCED_CODE_RE`, pii.py line 59): at each position try a backtick fence
then a tilde fence, matching lazily to the nearest closing fence; on a
match the whole block becomes one `inr` segment and scanning resumes after
it; otherwise the character is kept (`inl`) and scanning advances one.
Fuelled so the kernel can evaluate it; `fuel = length` always suffices. -/
def fencedSegsGo : Nat → List Char → List (Sum Char (List Char))
  | 0, _ => []
  | _, [] => []
  | fuel + 1, c :: rest =>
    if tick3.isPrefixOf (c :: rest) then
      match splitAtFirst tick3 ((c :: rest).drop 3) with
      | some (body, post) =>
        Sum.inr (tick3 ++ body ++ tick3) :: fencedSegsGo fuel post
      | none => Sum.inl c :: fencedSegsGo fuel rest
    else if tilde3.isPrefixOf (c :: rest) then
      match splitAtFirst tilde3 ((c :: rest).drop 3) with
      | some (body, post) =>
        Sum.inr (tilde3 ++ body ++ tilde3) :: fencedSegsGo fuel post
      | none => Sum.inl c :: fencedSegsGo fuel rest
    else Sum.inl c :: fencedSegsGo fuel rest

/-- The fenced-extraction scan of a text. -/
def fencedSegs (s : List Char) : List (Sum Char (List Char)) :=
  fencedSegsGo s.length s

/-- A character the inline regex `[^`\n]+` accepts. -/
def isInlineChar (c : Char) : Bool := !(c == '`') && !(c == '\n')

/-- The left-to-right scan of the inline-span regex sub
(`_INLINE_CODE_RE`, pii.py line 60): at a backtick, a non-empty run of
non-backtick non-newline characters closed by a backtick is one `inr`
segment; otherwise advance one character. -/
def inlineSegsGo : Nat → List Char → List (Sum Char (List Char))
  | 0, _ => []
  | _, [] => []
  | fuel + 1, c :: rest =>
    if c == '`' then
      match rest.takeWhile isInlineChar, rest.drop (rest.takeWhile isInlineChar).length with
      | [], _ => Sum.inl c :: inlineSegsGo fuel rest
      | run, d :: rest2 =>
        if d == '`' then
          Sum.inr (c :: (run ++ [d])) :: inlineSegsGo fuel rest2
        else Sum.inl c :: inlineSegsGo fuel rest
      | _, [] => Sum.inl c :: inlineSegsGo fuel rest
    else Sum.inl c :: inlineSegsGo fuel rest

/-- The inline-extraction scan of a text. -/
def inlineSegs (s : List Char) : List (Sum Char (List Char)) :=
  inlineSegsGo s.length s

/-- The narrative a segment list substitutes to, drawing one fresh key per
block from the supply. -/
def narrOf : List (Sum Char (List Char)) → List (List Char) → List Char
  | [], _ => []
  | Sum.inl c :: rest, ks => c :: narrOf rest ks
  | Sum.inr _ :: rest, [] => narrOf rest []
  | Sum.inr _ :: rest, k :: ks => k ++ narrOf rest ks

/-- The blocks of a segment list, in scan order. -/
def blocksOf : List (Sum Char (List Char)) → List (List Char)
  | [] => []
  | Sum.inl _ :: rest => blocksOf rest
  | Sum.inr b :: rest => b :: blocksOf rest

/-- A whitespace character in the sense of Python's `str.split()` (the
ASCII whitespace actually occurring in markdown text). -/
def wsChar (c : Char) : Bool :=
  c == ' ' || c == '\t' || c == '\n' || c == '\r' ||
    c == '\x0b' || c == '\x0c'

/-- A whitespace character opens no fence. -/
theorem wsChar_ne_fences (c : Char) (h : wsChar c = true) :
    c ≠ '`' ∧ c ≠ '~' := by
  rw [wsChar] at h
  simp only [Bool.or_eq_true, beq_iff_eq] at h
  rcases h with ((((h | h) | h) | h) | h) | h <;> subst h <;>
    exact ⟨by decide, by decide⟩

/-- A fence never matches at a character that differs from its head. -/
theorem fence_not_prefix (a c : Char) (ft x : List Char) (h : c ≠ a) :
    (a :: ft).isPrefixOf (c :: x) = false := by
  show ((a == c) && ft.isPrefixOf x) = false
  rw [show (a == c) = false from beq_eq_false_iff_ne.mpr (fun hac => h hac.symm),
    Bool.false_and]

/-- A well-formed fenced block for the given fence: it begins with the
fence and its body's lazy search finds the closing fence exactly at the
block's end. -/
def fencedBlock? (fence b : List Char) : Bool :=
  fence.isPrefixOf b &&
    (match splitAtFirst fence (b.drop fence.length) with
     | some (_, post) => post.isEmpty
     | none => false)

/-- Well-formedness of a decomposition: every block is a backtick or tilde
fenced block and every text chunk is whitespace. -/
def psWellFormed : List ((List Char) × (List Char) × (List Char)) → Bool
  | [] => true
  | (_, b, t) :: ps =>
    (fencedBlock? tick3 b || fencedBlock? tilde3 b) && t.all wsChar &&
      psWellFormed ps

/-- The segment list the fenced scan produces for a decomposition. -/
def segsCat : List ((List Char) × (List Char) × (List Char)) →
    List (Sum Char (List Char))
  | [] => []
  | (_, b, t) :: ps => Sum.inr b :: (t.map Sum.inl ++ segsCat ps)

/-- A leading character distributes over `interleaveBlocks`. -/
theorem interleaveBlocks_cons (c : Char) (t0 : List Char)
    (ps : List ((List Char) × (List Char) × (List Char))) :
    interleaveBlocks (c :: t0) ps = c :: interleaveBlocks t0 ps := by
  cases ps with
  | nil => rfl
  | cons p rest =>
    obtain ⟨k, b, t⟩ := p
    rw [interleaveBlocks, interleaveBlocks]
    simp

/-- The scan of whitespace-plus-blocks input: one scanner step at a
backtick block. -/
theorem fencedSegsGo_tick (body R : List Char) (fuel : Nat)
    (hsplit : splitAtFirst tick3 (body ++ tick3) = some (body, []))
    (hfuel : R.length ≤ fuel) :
    fencedSegsGo (fuel + 1) (tick3 ++ (body ++ (tick3 ++ R))) =
      Sum.inr (tick3 ++ body ++ tick3) :: fencedSegsGo fuel R := by
  have hpre : tick3.isPrefixOf
      ('`' :: ('`' :: '`' :: (body ++ (tick3 ++ R)))) = true := by
    simp [tick3, List.isPrefixOf]
  have hsp : splitAtFirst tick3 (body ++ (tick3 ++ R)) = some (body, R) := by
    have := splitAtFirst_append tick3 (body ++ tick3) R body [] hsplit
    rw [List.nil_append] at this
    rw [← this, List.append_assoc]
  show fencedSegsGo (fuel + 1) ('`' :: ('`' :: '`' :: (body ++ (tick3 ++ R)))) = _
  rw [fencedSegsGo, if_pos hpre]
  simp only [List.drop_succ_cons, List.drop_zero, hsp]

/-- One scanner step at a tilde block. -/
theorem fencedSegsGo_tilde (body R : List Char) (fuel : Nat)
    (hsplit : splitAtFirst tilde3 (body ++ tilde3) = some (body, []))
    (hfuel : R.length ≤ fuel) :
    fencedSegsGo (fuel + 1) (tilde3 ++ (body ++ (tilde3 ++ R))) =
      Sum.inr (tilde3 ++ body ++ tilde3) :: fencedSegsGo fuel R := by
  have hpre : tilde3.isPrefixOf
      ('~' :: ('~' :: '~' :: (body ++ (tilde3 ++ R)))) = true := by
    simp [tilde3, List.isPrefixOf]
  have hnp : tick3.isPrefixOf
      ('~' :: ('~' :: '~' :: (body ++ (tilde3 ++ R)))) = false :=
    fence_not_prefix '`' '~' ['`', '`'] _ (by decide)
  have hsp : splitAtFirst tilde3 (body ++ (tilde3 ++ R)) = some (body, R) := by
    have := splitAtFirst_append tilde3 (body ++ tilde3) R body [] hsplit
    rw [List.nil_append] at this
    rw [← this, List.append_assoc]
  show fencedSegsGo (fuel + 1) ('~' :: ('~' :: '~' :: (body ++ (tilde3 ++ R)))) = _
  rw [fencedSegsGo, if_neg (by rw [hnp]; simp), if_pos hpre]
  simp only [List.drop_succ_cons, List.drop_zero, hsp]

/-- One scanner step at a whitespace character. -/
theorem fencedSegsGo_ws_step (c : Char) (rest : List Char) (fuel : Nat)
    (h : wsChar c = true) :
    fencedSegsGo (fuel + 1) (c :: rest) =
      Sum.inl c :: fencedSegsGo fuel rest := by
  obtain ⟨h1, h2⟩ := wsChar_ne_fences c h
  have hnp1 : tick3.isPrefixOf (c :: rest) = false :=
    fence_not_prefix '`' c ['`', '`'] rest h1
  have hnp2 : tilde3.isPrefixOf (c :: rest) = false :=
    fence_not_prefix '~' c ['~', '~'] rest h2
  rw [fencedSegsGo, if_neg (by rw [hnp1]; simp), if_neg (by rw [hnp2]; simp)]

/-- A well-formed backtick block decomposes around its lazy closing
search. -/
theorem fencedBlock_decomp (fence b : List Char) (hf : fence ≠ [])
    (h : fencedBlock? fence b = true) :
    ∃ body, b = fence ++ (body ++ fence) ∧
      splitAtFirst fence (body ++ fence) = some (body, []) := by
  rw [fencedBlock?, Bool.and_eq_true] at h
  obtain ⟨hpre, hrest⟩ := h
  obtain ⟨z, hz⟩ := List.isPrefixOf_iff_prefix.mp hpre
  have hdrop : b.drop fence.length = z := by
    rw [← hz, List.drop_left]
  rw [hdrop] at hrest
  cases hsp : splitAtFirst fence z with
  | none => rw [hsp] at hrest; exact absurd hrest (by simp)
  | some pp =>
    obtain ⟨body, post⟩ := pp
    rw [hsp] at hrest
    have hpost : post = [] := by
      simpa using hrest
    subst hpost
    have hzd := splitAtFirst_decomp fence z body [] hsp
    rw [List.append_nil] at hzd
    refine ⟨body, ?_, ?_⟩
    · rw [← hz, hzd]
    · rw [← hzd]
      exact hsp

/-- The fenced scan of a decomposed whitespace-and-blocks text yields
exactly its canonical segments. -/
theorem fencedSegsGo_interleave :
    ∀ (ps : List ((List Char) × (List Char) × (List Char)))
      (t0 : List Char) (fuel : Nat),
      (interleaveBlocks t0 ps).length ≤ fuel →
      t0.all wsChar = true → psWellFormed ps = true →
      fencedSegsGo fuel (interleaveBlocks t0 ps) =
        t0.map Sum.inl ++ segsCat ps := by
  intro ps
  induction ps with
  | nil =>
    intro t0
    induction t0 with
    | nil =>
      intro fuel _ _ _
      cases fuel <;> rfl
    | cons c t0' iht =>
      intro fuel hfuel hws _
      rw [show interleaveBlocks (c :: t0') [] = c :: t0' from rfl] at hfuel ⊢
      cases fuel with
      | zero => simp at hfuel
      | succ f =>
        rw [List.all_cons, Bool.and_eq_true] at hws
        rw [fencedSegsGo_ws_step c t0' f hws.1, List.map_cons]
        rw [show interleaveBlocks t0' [] = t0' from rfl] at iht
        rw [iht f (by simp at hfuel ⊢; omega) hws.2 rfl]
        rfl
  | cons p rest ih =>
    obtain ⟨k, b, t⟩ := p
    intro t0
    induction t0 with
    | nil =>
      intro fuel hfuel hws hwf
      rw [psWellFormed, Bool.and_eq_true, Bool.and_eq_true] at hwf
      obtain ⟨⟨hblk, htws⟩, hwf'⟩ := hwf
      rw [show interleaveBlocks [] ((k, b, t) :: rest) =
        b ++ interleaveBlocks t rest from by
          rw [interleaveBlocks]; simp] at hfuel ⊢
      rw [Bool.or_eq_true] at hblk
      rcases hblk with htick | htilde
      · obtain ⟨body, hb, hsp⟩ := fencedBlock_decomp tick3 b (by decide) htick
        have hlen6 : 6 ≤ b.length := by
          rw [hb, List.length_append, List.length_append]
          have h3 : tick3.length = 3 := rfl
          omega
        cases fuel with
        | zero =>
          exfalso
          rw [List.length_append] at hfuel
          omega
        | succ f =>
          have hR : (interleaveBlocks t rest).length ≤ f := by
            rw [List.length_append] at hfuel
            omega
          rw [hb, List.append_assoc, List.append_assoc]
          rw [fencedSegsGo_tick body (interleaveBlocks t rest) f hsp hR]
          rw [ih t f hR htws hwf']
          simp [segsCat, List.append_assoc]
      · obtain ⟨body, hb, hsp⟩ := fencedBlock_decomp tilde3 b (by decide) htilde
        have hlen6 : 6 ≤ b.length := by
          rw [hb, List.length_append, List.length_append]
          have h3 : tilde3.length = 3 := rfl
          omega
        cases fuel with
        | zero =>
          exfalso
          rw [List.length_append] at hfuel
          omega
        | succ f =>
          have hR : (interleaveBlocks t rest).length ≤ f := by
            rw [List.length_append] at hfuel
            omega
          rw [hb, List.append_assoc, List.append_assoc]
          rw [fencedSegsGo_tilde body (interleaveBlocks t rest) f hsp hR]
          rw [ih t f hR htws hwf']
          simp [segsCat, List.append_assoc]
    | cons c t0' iht =>
      intro fuel hfuel hws hwf
      rw [interleaveBlocks_cons] at hfuel ⊢
      cases fuel with
      | zero => simp at hfuel
      | succ f =>
        rw [List.all_cons, Bool.and_eq_true] at hws
        rw [fencedSegsGo_ws_step c _ f hws.1]
        rw [iht f (by simp at hfuel ⊢; omega) hws.2 hwf]
        rfl

/-- Substituting the canonical segments with the decomposition's own keys
rebuilds the narrative. -/
theorem narrOf_canonical :
    ∀ (ps : List ((List Char) × (List Char) × (List Char))) (t0 : List Char),
      narrOf (t0.map Sum.inl ++ segsCat ps) (ps.map fun x => x.1) =
        interleaveKeys t0 ps := by
  intro ps
  induction ps with
  | nil =>
    intro t0
    induction t0 with
    | nil => rfl
    | cons c t0' iht =>
      rw [List.map_cons, List.cons_append, narrOf, iht]
      rfl
  | cons p rest ih =>
    obtain ⟨k, b, t⟩ := p
    intro t0
    induction t0 with
    | nil =>
      rw [List.map_nil, List.nil_append, segsCat, List.map_cons, narrOf,
        ih t, interleaveKeys, List.nil_append]
    | cons c t0' iht =>
      rw [List.map_cons, List.cons_append, narrOf, iht]
      rw [show interleaveKeys (c :: t0') ((k, b, t) :: rest) =
        c :: interleaveKeys t0' ((k, b, t) :: rest) from by
          rw [interleaveKeys, interleaveKeys]; simp]

/-- The canonical segments carry exactly the decomposition's blocks. -/
theorem blocksOf_canonical :
    ∀ (ps : List ((List Char) × (List Char) × (List Char))) (t0 : List Char),
      blocksOf (t0.map Sum.inl ++ segsCat ps) = ps.map fun x => x.2.1 := by
  intro ps
  induction ps with
  | nil =>
    intro t0
    induction t0 with
    | nil => rfl
    | cons c t0' iht => rw [List.map_cons, List.cons_append, blocksOf, iht]
  | cons p rest ih =>
    obtain ⟨k, b, t⟩ := p
    intro t0
    induction t0 with
    | nil =>
      rw [List.map_nil, List.nil_append, segsCat, blocksOf, ih t,
        List.map_cons]
    | cons c t0' iht => rw [List.map_cons, List.cons_append, blocksOf, iht]

/-- The inline scan of a backtick-free text keeps every character. -/
theorem inlineSegsGo_no_tick :
    ∀ (fuel : Nat) (s : List Char), s.length ≤ fuel →
      s.all (fun c => !(c == '`')) = true →
      inlineSegsGo fuel s = s.map Sum.inl := by
  intro fuel
  induction fuel with
  | zero =>
    intro s hlen _
    cases s with
    | nil => rfl
    | cons c rest => simp at hlen
  | succ f ih =>
    intro s hlen hnb
    cases s with
    | nil => rfl
    | cons c rest =>
      rw [List.all_cons, Bool.and_eq_true] at hnb
      have hcneq : (c == '`') = false := by simpa using hnb.1
      have hcnot : ¬ ((c == '`') = true) := by rw [hcneq]; simp
      rw [inlineSegsGo, if_neg hcnot, ih rest (by simp at hlen; omega) hnb.2]
      rfl

/-- Substitution over pure narrative segments is the identity, whatever
the key supply. -/
theorem narrOf_map_inl (s : List Char) (ks : List (List Char)) :
    narrOf (s.map Sum.inl) ks = s := by
  induction s with
  | nil => rfl
  | cons c rest ih => rw [List.map_cons, narrOf, ih]

/-- Pure narrative segments carry no blocks. -/
theorem blocksOf_map_inl (s : List Char) :
    blocksOf (s.map Sum.inl) = [] := by
  induction s with
  | nil => rfl
  | cons c rest ih => rw [List.map_cons, blocksOf, ih]

/-- Key sanity for a decomposition: no key contains a backtick (true of
the `__CODE_BLOCK_<hex>__` placeholders). -/
def keysNoTick : List ((List Char) × (List Char) × (List Char)) → Bool
  | [] => true
  | (k, _, _) :: ps => k.all (fun c => !(c == '`')) && keysNoTick ps

/-- A narrative of whitespace chunks and backtick-free keys is
backtick-free. -/
theorem interleaveKeys_no_tick :
    ∀ (ps : List ((List Char) × (List Char) × (List Char))) (t0 : List Char),
      t0.all wsChar = true → psWellFormed ps = true → keysNoTick ps = true →
      (interleaveKeys t0 ps).all (fun c => !(c == '`')) = true := by
  intro ps
  have hws : ∀ (x : List Char), x.all wsChar = true →
      x.all (fun c => !(c == '`')) = true := by
    intro x hx
    rw [List.all_eq_true] at hx ⊢
    intro c hc
    have := (wsChar_ne_fences c (hx c hc)).1
    simpa using this
  induction ps with
  | nil =>
    intro t0 h _ _
    exact hws t0 h
  | cons p rest ih =>
    obtain ⟨k, b, t⟩ := p
    intro t0 h hwf hknt
    rw [psWellFormed, Bool.and_eq_true, Bool.and_eq_true] at hwf
    rw [keysNoTick, Bool.and_eq_true] at hknt
    rw [interleaveKeys, List.all_append, List.all_append,
      Bool.and_eq_true, Bool.and_eq_true]
    exact ⟨⟨hws t0 h, hknt.1⟩, ih t hwf.1.2 hwf.2 hknt.2⟩

/-- Embedding of `_extract_code_blocks` (pii.py lines 63-92): the fenced
pass replaces each fenced block with the next `__CODE_BLOCK_<hex>__` key,
then the inline pass replaces each inline span with the next
`__INLINE_<hex>__` key; the `uuid4`-generated keys are explicit inputs, in
draw order, and the returned map is in dict-insertion order (all fenced
pairs, then all inline pairs). -/
def extract_code_blocks (text : List Char)
    (fencedKeys inlineKeys : List (List Char)) :
    List Char × List ((List Char) × (List Char)) :=
  let fsegs := fencedSegs text
  let narr1 := narrOf fsegs fencedKeys
  let isegs := inlineSegs narr1
  let narr2 := narrOf isegs inlineKeys
  (narr2,
    fencedKeys.zip (blocksOf fsegs) ++ inlineKeys.zip (blocksOf isegs))

/-- Embedding of `_reinject_code_blocks` (pii.py lines 95-108): for each
`(key, original)` pair, in insertion order, replace every occurrence of the
key by the original. -/
def reinject_code_blocks (text : List Char)
    (pmap : List ((List Char) × (List Char))) : List Char :=
  reinjectFold pmap text

/-- The typed placeholders of `_PLACEHOLDER_RE` (pii.py lines 46-48), in
the regex's alternation order. -/
def placeholderLits : List (List Char) :=
  ["[EMAIL]".data, "[PHONE]".data, "[NAME]".data, "[LOCATION]".data,
   "[API_KEY]".data, "[CREDIT_CARD]".data, "[IP_ADDRESS]".data,
   "[USERNAME]".data, "[REDACTED]".data]

/-- The `findall` count of `_PLACEHOLDER_RE`: non-overlapping left-to-right
matches of the typed placeholder tokens. -/
def countPlaceholdersGo : Nat → List Char → Nat
  | 0, _ => 0
  | _, [] => 0
  | fuel + 1, c :: rest =>
    match placeholderLits.find? (fun lit => lit.isPrefixOf (c :: rest)) with
    | some lit => 1 + countPlaceholdersGo fuel ((c :: rest).drop lit.length)
    | none => countPlaceholdersGo fuel rest

/-- Placeholder-token count of a text. -/
def countPlaceholders (s : List Char) : Nat := countPlaceholdersGo s.length s

/-- The token count of Python's `cleaned.split()`: number of maximal
non-whitespace runs. -/
def tokenCountGo : List Char → Bool → Nat
  | [], _ => 0
  | c :: rest, inTok =>
    if wsChar c then tokenCountGo rest false
    else (if inTok then 0 else 1) + tokenCountGo rest true

/-- Whitespace-split token count of a text. -/
def tokenCountOf (s : List Char) : Nat := tokenCountGo s false

/-- Embedding of `PIIPipeline.strip` (pii.py lines 248-328).  The Presidio
analyzer and anonymizer are external engines, passed as parameters:
`analyze` yields the `(start, end)` spans of its findings, `anonymize`
rewrites a text given such spans.  The pipeline: extract code blocks,
pass 1 analyze + anonymize, pass 2a re-analyze and re-anonymize residual
findings, pass 2b replace surviving original spans of length ≥ 4 with
`[REDACTED]`, reinject code blocks, then the >50% placeholder-per-token
rejection check on the final cleaned text. -/
def strip (analyze : List Char → List (Nat × Nat))
    (anonymize : List Char → List (Nat × Nat) → List Char)
    (fencedKeys inlineKeys : List (List Char)) (text : List Char) :
    List Char × Bool :=
  let ex := extract_code_blocks text fencedKeys inlineKeys
  let narrative := ex.1
  let code_map := ex.2
  let results := analyze narrative
  let original_pii_values :=
    results.map fun p => (narrative.drop p.1).take (p.2 - p.1)
  let cleaned1 := anonymize narrative results
  let residual := analyze cleaned1
  let cleaned2 :=
    if residual.isEmpty then cleaned1 else anonymize cleaned1 residual
  let cleaned3 := original_pii_values.foldl
    (fun acc v =>
      if decide (4 ≤ v.length) && containsSub v acc then
        replaceList v ("[REDACTED]".data) acc
      else acc) cleaned2
  let cleaned := reinject_code_blocks cleaned3 code_map
  let placeholder_count := countPlaceholders cleaned
  let total_tokens := max (tokenCountOf cleaned) 1
  (cleaned,
    decide (((placeholder_count : ℚ) / (total_tokens : ℚ)) > (1/2 : ℚ)))

/-- C10 counterexample: for the input `` `a ```x``` b` `` the inline span
swallows the fenced placeholder, and reinjection — which processes the
fenced key before the inline key, in dict-insertion order — leaves the
fenced placeholder in the output: the round trip returns
`` `a __CODE_BLOCK_0__ b` ``, not the original text. -/
theorem sanitizer_roundtrip_counterexample :
    reinject_code_blocks
        (extract_code_blocks ("`a ```x``` b`".data)
          ["__CODE_BLOCK_0__".data] ["__INLINE_1__".data]).1
        (extract_code_blocks ("`a ```x``` b`".data)
          ["__CODE_BLOCK_0__".data] ["__INLINE_1__".data]).2 =
      "`a __CODE_BLOCK_0__ b`".data ∧
    reinject_code_blocks
        (extract_code_blocks ("`a ```x``` b`".data)
          ["__CODE_BLOCK_0__".data] ["__INLINE_1__".data]).1
        (extract_code_blocks ("`a ```x``` b`".data)
          ["__CODE_BLOCK_0__".data] ["__INLINE_1__".data]).2 ≠
      "`a ```x``` b`".data := by
  constructor
  · decide
  · decide

/-- C10 amended: for an input consisting only of fenced code blocks and
whitespace (given as its decomposition into whitespace chunks and
well-formed fenced blocks, with fresh backtick-free placeholder keys — no
inline span can swallow a fenced placeholder there), extraction followed by
reinjection restores the input exactly; `strip` returns the input
unchanged whenever the analyzer finds nothing in the placeholder
narrative; and `should_reject` is false provided the code blocks carry no
typed placeholder tokens (a block containing e.g. `[EMAIL]` can still trip
the >50% ratio). -/
theorem strip_fenced_ws_passthrough
    (analyze : List Char → List (Nat × Nat))
    (anonymize : List Char → List (Nat × Nat) → List Char)
    (t0 : List Char) (ps : List ((List Char) × (List Char) × (List Char)))
    (iks : List (List Char))
    (hws : t0.all wsChar = true)
    (hpw : psWellFormed ps = true)
    (hfresh : freshFor t0 ps = true)
    (hnt : keysNoTick ps = true)
    (han : analyze (interleaveKeys t0 ps) = [])
    (han0 : anonymize (interleaveKeys t0 ps) [] = interleaveKeys t0 ps) :
    reinject_code_blocks
        (extract_code_blocks (interleaveBlocks t0 ps)
          (ps.map fun x => x.1) iks).1
        (extract_code_blocks (interleaveBlocks t0 ps)
          (ps.map fun x => x.1) iks).2 =
      interleaveBlocks t0 ps ∧
    (strip analyze anonymize (ps.map fun x => x.1) iks
        (interleaveBlocks t0 ps)).1 = interleaveBlocks t0 ps ∧
    (countPlaceholders (interleaveBlocks t0 ps) = 0 →
      (strip analyze anonymize (ps.map fun x => x.1) iks
        (interleaveBlocks t0 ps)).2 = false) := by
  have hextract : extract_code_blocks (interleaveBlocks t0 ps)
      (ps.map fun x => x.1) iks =
      (interleaveKeys t0 ps, ps.map fun x => (x.1, x.2.1)) := by
    unfold extract_code_blocks fencedSegs inlineSegs
    rw [fencedSegsGo_interleave ps t0 _ (le_refl _) hws hpw]
    simp only [narrOf_canonical,
      inlineSegsGo_no_tick _ _ (le_refl _)
        (interleaveKeys_no_tick ps t0 hws hpw hnt),
      narrOf_map_inl, blocksOf_canonical, blocksOf_map_inl,
      List.zip_nil_right, List.append_nil, List.zip_map']
  have hrestore : reinject_code_blocks (interleaveKeys t0 ps)
      (ps.map fun x => (x.1, x.2.1)) = interleaveBlocks t0 ps :=
    reinjectFold_restores ps t0 hfresh
  have hclean : strip analyze anonymize (ps.map fun x => x.1) iks
      (interleaveBlocks t0 ps) =
      (interleaveBlocks t0 ps,
        decide (((countPlaceholders (interleaveBlocks t0 ps) : ℚ) /
          ((max (tokenCountOf (interleaveBlocks t0 ps)) 1 : ℕ) : ℚ)) >
          (1/2 : ℚ))) := by
    unfold strip
    rw [hextract]
    simp only [han, han0, List.map_nil, List.foldl_nil, List.isEmpty_nil,
      if_true, hrestore]
  refine ⟨?_, ?_, ?_⟩
  · rw [hextract]
    exact hrestore
  · rw [hclean]
  · intro hcp
    rw [hclean]
    simp only
    apply decide_eq_false
    rw [hcp]
    push_cast
    rw [zero_div]
    norm_num

/-- The analyzer of the C10 witness: no findings anywhere (what Presidio
reports on a placeholder-and-whitespace narrative). -/
def emptyAnalyze : List Char → List (Nat × Nat) := fun _ => []

/-- The anonymizer of the C10 witness: identity (what the Presidio
anonymizer does with no findings). -/
def idAnonymize : List Char → List (Nat × Nat) → List Char := fun t _ => t

/-- The decomposition of the C10 witness input `"``` code ``` "`. -/
def wPs : List ((List Char) × (List Char) × (List Char)) :=
  [("__CODE_BLOCK_0__".data, "``` code ```".data, " ".data)]

/-- C10 witness: the amended theorem at the concrete input
`"``` code ``` "` — extraction/reinjection round-trips, `strip` is the
identity, and `should_reject` is false. -/
theorem strip_fenced_ws_passthrough_witness :
    reinject_code_blocks
        (extract_code_blocks (interleaveBlocks [] wPs)
          (wPs.map fun x => x.1) []).1
        (extract_code_blocks (interleaveBlocks [] wPs)
          (wPs.map fun x => x.1) []).2 =
      interleaveBlocks [] wPs ∧
    (strip emptyAnalyze idAnonymize (wPs.map fun x => x.1) []
        (interleaveBlocks [] wPs)).1 = interleaveBlocks [] wPs ∧
    (strip emptyAnalyze idAnonymize (wPs.map fun x => x.1) []
        (interleaveBlocks [] wPs)).2 = false := by
  have h := strip_fenced_ws_passthrough emptyAnalyze idAnonymize [] wPs []
    rfl (by decide) (by decide) (by decide) rfl rfl
  exact ⟨h.1, h.2.1, h.2.2 (by decide)⟩

end HiveMind
